import Mathlib

/-!
# SPLab3: the tokenizer of `SPLab3.cpp`

A shallow embedding of `tokenize` (SPLab3.cpp, lines 46-128) and of the part of
`std::regex` (ECMAScript grammar, the default) that its eleven patterns use.

* The text is a `List Char`; one `Char` stands for one `char` of the
  `std::string`. Only ASCII characters belong to a character class (the "C"
  locale); a `Char` above 127 stands for a byte outside ASCII.
* A pattern is a value of `Regex`, written constructor by constructor after the
  raw string in the source. `Regex.run` is the backtracking matcher of the
  ECMAScript grammar: alternatives are tried left to right, `*`, `+`, `?` and
  `{1,2}` are greedy, `*?` is lazy, and the first way to finish wins. Capture
  groups only record sub-matches; the program reads none of them (it uses
  `match.str()`, `match.position()` and `match.length()` of the whole match) and
  no pattern has a back-reference, so a group is its content.
* `regex_search` tries the start positions of the range `[search_start, cend)`
  from left to right. The range starts at `search_start` and the flag
  `match_prev_avail` is not passed, so at the first position the character
  before the range counts as a non-word character for `\b`.
-/

namespace SPLab3

/-! ## Data model (SPLab3.cpp, lines 6-23) -/

/-- The enumeration `TokenType`. The enumerator `Type` is written `Type_`. -/
inductive TokenType where
  | Number
  | StringLiteral
  | Identifier
  | Operator
  | ReservedWord
  | Delimiter
  | Comment
  | Type_
  | Function
  | Macro
  | Unknown
  deriving DecidableEq, Repr

/-- The structure `Token`: the lexeme and its category. -/
structure Token where
  value : List Char
  type : TokenType
  deriving DecidableEq, Repr

/-! ## Character classes of `std::regex` in the "C" locale -/

/-- The class `\d`. -/
def isDigit (c : Char) : Bool := decide ('0' ≤ c) && decide (c ≤ '9')

/-- The ranges `a-z` and `A-Z`. -/
def isLetter (c : Char) : Bool :=
  (decide ('a' ≤ c) && decide (c ≤ 'z')) || (decide ('A' ≤ c) && decide (c ≤ 'Z'))

/-- The class `\w`, which decides `\b`: letters, digits and the underscore. -/
def isWord (c : Char) : Bool := isLetter c || isDigit c || c == '_'

/-- The class `\s`: space, `\t`, `\n`, `\v`, `\f`, `\r`. -/
def isSpace (c : Char) : Bool :=
  c == ' ' || c == '\t' || c == '\n' || c == Char.ofNat 11 || c == Char.ofNat 12 || c == '\r'

/-- One item of a bracket expression. -/
inductive ClassAtom where
  | chr (c : Char)
  | range (lo hi : Char)
  | digit
  | space
  | notSpace

/-- Whether the character belongs to the item. -/
def ClassAtom.test : ClassAtom → Char → Bool
  | .chr c, x => x == c
  | .range lo hi, x => decide (lo ≤ x) && decide (x ≤ hi)
  | .digit, x => isDigit x
  | .space, x => isSpace x
  | .notSpace, x => !isSpace x

/-- A bracket expression `[...]` (`negated = false`) or `[^...]` (`negated = true`). -/
def inClass (negated : Bool) (atoms : List ClassAtom) (x : Char) : Bool :=
  negated != atoms.any (fun a => a.test x)

/-- The items of a bracket expression that lists single characters. -/
def chars (s : String) : List ClassAtom := s.toList.map ClassAtom.chr

/-! ## Patterns -/

/-- The part of the ECMAScript pattern grammar that the program uses. -/
inductive Regex where
  /-- A literal character. -/
  | lit (c : Char)
  /-- A bracket expression or a class escape. -/
  | cls (negated : Bool) (atoms : List ClassAtom)
  /-- The wildcard `.`: any character but a line terminator. -/
  | dot
  /-- The assertion `\b`. -/
  | wordb
  /-- The empty pattern. -/
  | eps
  /-- Concatenation. -/
  | seq (a b : Regex)
  /-- Alternation `a|b`, left first. -/
  | alt (a b : Regex)
  /-- Greedy `a*`. -/
  | star (a : Regex)
  /-- Lazy `a*?`. -/
  | starLazy (a : Regex)

namespace Regex

/-- Greedy `a+`: one `a`, then `a*`. -/
def plus (a : Regex) : Regex := seq a (star a)

/-- Greedy `a?`: `a` first, then nothing. -/
def opt (a : Regex) : Regex := alt a eps

/-- Greedy `a{1,2}`: one `a`, then `a?`. -/
def rep12 (a : Regex) : Regex := seq a (opt a)

/-- A literal string. -/
def word (s : String) : Regex :=
  s.toList.foldr (fun c r => seq (lit c) r) eps

/-- Concatenation of a list of patterns. -/
def cat : List Regex → Regex
  | [] => eps
  | [a] => a
  | a :: b :: rest => seq a (cat (b :: rest))

/-- Alternation of a list of patterns, in order. -/
def anyOf : List Regex → Regex
  | [] => cls false []
  | [a] => a
  | a :: b :: rest => alt a (anyOf (b :: rest))

end Regex

/-- What the matcher does once a pattern has matched: it is given whether the
character just before the position is a word character, and the remaining text,
and answers with the text that remains after the whole match, if any. -/
abbrev Cont := Bool → List Char → Option (List Char)

/-- Whether the text begins with a word character (the right side of `\b`). -/
def nextIsWord : List Char → Bool
  | [] => false
  | c :: _ => isWord c

/-- Greedy repetition: one more round of the body if it consumes something and
the rest then succeeds, otherwise stop here. The first argument bounds the
number of rounds; every round consumes a character, so the length of the text
is enough. -/
def starLoop (body : Bool → List Char → Cont → Option (List Char)) :
    Nat → Bool → List Char → Cont → Option (List Char)
  | 0, l, s, k => k l s
  | n + 1, l, s, k =>
    match body l s (fun l' s' => if s'.length < s.length then starLoop body n l' s' k else none) with
    | some r => some r
    | none => k l s

/-- Lazy repetition: stop here if the rest succeeds, otherwise one more round. -/
def lazyLoop (body : Bool → List Char → Cont → Option (List Char)) :
    Nat → Bool → List Char → Cont → Option (List Char)
  | 0, l, s, k => k l s
  | n + 1, l, s, k =>
    match k l s with
    | some r => some r
    | none => body l s (fun l' s' => if s'.length < s.length then lazyLoop body n l' s' k else none)

/-- The backtracking matcher. `l` says whether the character before the
position is a word character, `s` is the text from the position on. -/
def Regex.run : Regex → Bool → List Char → Cont → Option (List Char)
  | .lit c, _, s, k =>
    match s with
    | [] => none
    | x :: t => if x = c then k (isWord x) t else none
  | .cls negated atoms, _, s, k =>
    match s with
    | [] => none
    | x :: t => if inClass negated atoms x then k (isWord x) t else none
  | .dot, _, s, k =>
    match s with
    | [] => none
    | x :: t => if x ≠ '\n' ∧ x ≠ '\r' then k (isWord x) t else none
  | .wordb, l, s, k => if l != nextIsWord s then k l s else none
  | .eps, l, s, k => k l s
  | .seq a b, l, s, k => a.run l s (fun l' s' => b.run l' s' k)
  | .alt a b, l, s, k =>
    match a.run l s k with
    | some r => some r
    | none => b.run l s k
  | .star a, l, s, k => starLoop a.run s.length l s k
  | .starLazy a, l, s, k => lazyLoop a.run s.length l s k

/-- The length of the match of the pattern that starts at this position. -/
def Regex.matchAt (r : Regex) (l : Bool) (s : List Char) : Option Nat :=
  (r.run l s (fun _ s' => some s')).map (fun s' => s.length - s'.length)

/-- The part of `std::smatch` the program reads: `position()` and `length()`. -/
structure Match where
  position : Nat
  length : Nat
  deriving DecidableEq, Repr

/-- The search of `std::regex_search`: the leftmost start position with a match. -/
def searchFrom (r : Regex) : Nat → Bool → List Char → Option Match
  | pos, l, [] => (r.matchAt l []).map (fun n => ⟨pos, n⟩)
  | pos, l, c :: t =>
    match r.matchAt l (c :: t) with
    | some n => some ⟨pos, n⟩
    | none => searchFrom r (pos + 1) (isWord c) t

/-- The call `std::regex_search(search_start, code.cend(), match, r)` on the
text from `search_start` on. -/
def regex_search (r : Regex) (s : List Char) : Option Match := searchFrom r 0 false s

/-- The condition of every branch of the cascade,
`std::regex_search(search_start, code.cend(), match, r) && match.position() == 0`,
with `match.length()` when it holds. -/
def anchored (r : Regex) (s : List Char) : Option Nat :=
  match regex_search r s with
  | some m => if m.position = 0 then some m.length else none
  | none => none

/-! ## The eleven patterns (SPLab3.cpp, lines 50-60) -/

open Regex

/-- The set `[a-zA-Z_]`. -/
def identStart : Regex := cls false [.range 'a' 'z', .range 'A' 'Z', .chr '_']

/-- The set `[a-zA-Z0-9_]`. -/
def identChar : Regex := cls false [.range 'a' 'z', .range 'A' 'Z', .range '0' '9', .chr '_']

/-- The set `[0-9a-fA-F]`. -/
def hexDigit : Regex := cls false [.range '0' '9', .range 'a' 'f', .range 'A' 'F']

/-- Pattern `\b0x[0-9a-fA-F]+|\b\d+(\.\d+)?\b`. -/
def number_regex : Regex :=
  alt (cat [wordb, lit '0', lit 'x', plus hexDigit])
      (cat [wordb, plus (cls false [.digit]),
            opt (cat [lit '.', plus (cls false [.digit])]), wordb])

/-- Pattern `"([^"\\]|\\.)*"`. -/
def string_literal_regex : Regex :=
  cat [lit '\x22', star (alt (cls true [.chr '\x22', .chr '\x5c']) (cat [lit '\x5c', dot])),
       lit '\x22']

/-- Pattern `//.*|/\*[\s\S]*?\*/`. -/
def comment_regex : Regex :=
  alt (cat [lit '/', lit '/', star dot])
      (cat [lit '/', lit '*', starLazy (cls false [.space, .notSpace]), lit '*', lit '/'])

/-- Pattern `[+\-*\/=<>!&|]{1,2}|[+=\-\/*%]|\.\.|::|\.\.=|&`. -/
def operator_regex : Regex :=
  anyOf [rep12 (cls false (chars "+-*/=<>!&|")), cls false (chars "+=-/*%"),
         word "..", word "::", word "..=", lit '&']

/-- Pattern `[{}();,.:]`. -/
def delimiter_regex : Regex := cls false (chars "\x7b\x7d();,.:")

/-- Pattern `\b[a-zA-Z_][a-zA-Z0-9_]*\b`. -/
def identifier_regex : Regex := cat [wordb, identStart, star identChar, wordb]

/-- The alternatives of `reserved_word_regex`, in the order of the source. -/
def reservedWords : List String :=
  ["fn", "let", "if", "else", "while", "for", "return", "match", "impl", "trait", "as", "in",
   "async", "await", "dyn", "struct", "enum", "const", "static", "type", "unsafe", "mod", "pub",
   "self", "crate", "super", "mut", "continue", "break", "loop"]

/-- Pattern `\b(fn|let|if|...|break|loop)\b`. -/
def reserved_word_regex : Regex := cat [wordb, anyOf (reservedWords.map word), wordb]

/-- Pattern `use\s+([a-zA-Z_][a-zA-Z0-9_]*(::[a-zA-Z_][a-zA-Z0-9_]*)*)\s*;`. -/
def library_regex : Regex :=
  cat [lit 'u', lit 's', lit 'e', plus (cls false [.space]),
       identStart, star identChar, star (cat [lit ':', lit ':', identStart, star identChar]),
       star (cls false [.space]), lit ';']

/-- The alternatives of `type_regex`, in the order of the source. -/
def typeNames : List String :=
  ["i32", "u32", "i64", "u64", "f32", "f64", "String", "&str", "bool", "char"]

/-- Pattern `\b(i32|u32|i64|u64|f32|f64|String|&str|bool|char)\b`. -/
def type_regex : Regex := cat [wordb, anyOf (typeNames.map word), wordb]

/-- Pattern `\b[a-zA-Z_][a-zA-Z0-9_]*\s*\(`. -/
def function_regex : Regex :=
  cat [wordb, identStart, star identChar, star (cls false [.space]), lit '(']

/-- Pattern `[a-zA-Z_][a-zA-Z0-9_]*!`. -/
def macro_regex : Regex := cat [identStart, star identChar, lit '!']

/-! ## `std::string` operations used by the two special branches -/

/-- The value `std::string::npos` for a 64-bit `size_t`. -/
def npos : Nat := 2 ^ 64 - 1

/-- The index of the first occurrence of `c` in the text, whose first character
has index `i`; `npos` when there is none. -/
def findFrom (c : Char) : List Char → Nat → Nat
  | [], _ => npos
  | x :: t, i => if x = c then i else findFrom c t (i + 1)

/-- The call `s.find(c, pos)`: the index of the first occurrence of `c` at or
after `pos`, or `npos`. -/
def find (s : List Char) (c : Char) (pos : Nat) : Nat := findFrom c (s.drop pos) pos

/-- The call `s.substr(pos, count)`. It throws when `pos > s.size()`; the
program calls it with `pos = 0` and with `pos = s.find(" ") + 1`, which is 0 or
the index after a character of `s`, so neither call throws. -/
def substr (s : List Char) (pos count : Nat) : List Char := (s.drop pos).take count

/-! ## The scan loop (SPLab3.cpp, lines 62-127) -/

/-- One pass through the cascade of lines 68-121 on the text from
`search_start` on (not empty): the tokens pushed, and how far `search_start`
moves. In the library-import branch `start` is `find(" ") + 1` in `size_t`
arithmetic, so `npos + 1` wraps to 0; `end - start` does not wrap, since `find`
from `start` answers with an index from `start` on or with `npos`. -/
def scanStep (rest : List Char) : List Token × Nat :=
  match anchored comment_regex rest with
  | some n => ([⟨rest.take n, .Comment⟩], n)
  | none =>
  match anchored string_literal_regex rest with
  | some n => ([⟨rest.take n, .StringLiteral⟩], n)
  | none =>
  match anchored number_regex rest with
  | some n => ([⟨rest.take n, .Number⟩], n)
  | none =>
  match anchored macro_regex rest with
  | some n => ([⟨rest.take n, .Macro⟩], n)
  | none =>
  match anchored operator_regex rest with
  | some n => ([⟨rest.take n, .Operator⟩], n)
  | none =>
  match anchored function_regex rest with
  | some n =>
    let function_token := rest.take n
    ([⟨substr function_token 0 (find function_token '(' 0), .Function⟩,
      ⟨"(".toList, .Delimiter⟩], n)
  | none =>
  match anchored reserved_word_regex rest with
  | some n => ([⟨rest.take n, .ReservedWord⟩], n)
  | none =>
  match anchored library_regex rest with
  | some n =>
    let library_name := rest.take n
    let start := (find library_name ' ' 0 + 1) % 2 ^ 64
    let end_ := find library_name ';' start
    ([⟨"use".toList, .ReservedWord⟩,
      ⟨substr library_name start (end_ - start), .Identifier⟩], n)
  | none =>
  match anchored type_regex rest with
  | some n => ([⟨rest.take n, .Type_⟩], n)
  | none =>
  match anchored delimiter_regex rest with
  | some n => ([⟨rest.take n, .Delimiter⟩], n)
  | none =>
  match anchored identifier_regex rest with
  | some n => ([⟨rest.take n, .Identifier⟩], n)
  | none => ([⟨rest.take 1, .Unknown⟩], 1)

/-- The variables of the loop: the offset of `search_start` from
`code.cbegin()`, and the vector `tokens`. -/
structure LoopState where
  search_start : Nat
  tokens : List Token
  deriving DecidableEq, Repr

/-- One iteration of the `while` loop. -/
def iteration (code : List Char) (st : LoopState) : LoopState :=
  let r := scanStep (code.drop st.search_start)
  ⟨st.search_start + r.2, st.tokens ++ r.1⟩

/-- The `while (search_start != code.cend())` loop, for at most the given
number of iterations. -/
def loop (code : List Char) : Nat → LoopState → LoopState
  | 0, st => st
  | fuel + 1, st =>
    if st.search_start ≠ code.length then loop code fuel (iteration code st) else st

/-- The function `tokenize`: the loop from offset 0 and no tokens, with one
iteration allowed per character of the input. -/
def tokenize (code : List Char) : List Token :=
  (loop code code.length ⟨0, []⟩).tokens

/-! ## Vocabulary of the statements and of the proofs -/

/-- The set `[a-zA-Z_]` as a predicate. -/
def isIdentStart (c : Char) : Bool := isLetter c || c == '_'

/-- The whitespace characters the specification names: space, tab, newline. -/
def isBlank (c : Char) : Bool := c == ' ' || c == '\t' || c == '\n'

/-- A path: a first identifier `g`, then the identifiers `gs`, each after `::`. -/
def pathOf (g : List Char) (gs : List (List Char)) : List Char :=
  g ++ (gs.map (fun x => "::".toList ++ x)).flatten

/-- The group `::[a-zA-Z_][a-zA-Z0-9_]*` of `library_regex`. -/
def pathGroup : Regex := cat [lit ':', lit ':', identStart, star identChar]

/-- Whether the character before the position is a word character, once the
word `w` has been consumed from a position where the answer was `l`. -/
def leftAfter (l : Bool) (w : List Char) : Bool := w.foldl (fun _ c => isWord c) l

/-- A matcher body that consumes exactly one character, of the set `p`. -/
def OneChar (body : Bool → List Char → Cont → Option (List Char)) (p : Char → Bool) : Prop :=
  (∀ l k, body l [] k = none) ∧
  ∀ l c t k, body l (c :: t) k = if p c = true then k (isWord c) t else none

/-- An identifier: an ASCII letter or underscore, then letters, digits or
underscores. -/
def isIdentifier : List Char → Bool
  | [] => false
  | c :: t => isIdentStart c && t.all isWord

/-- The set `[0-9a-fA-F]` as a predicate. -/
def isHexDigit (c : Char) : Bool :=
  isDigit c || (decide ('a' ≤ c) && decide (c ≤ 'f')) || (decide ('A' ≤ c) && decide (c ≤ 'F'))

/-- A non-empty run of decimal digits. -/
def isDigits (d : List Char) : Bool := !d.isEmpty && d.all isDigit

/-- The branch `\b0x[0-9a-fA-F]+` of `number_regex`. -/
def hexNumber : Regex := cat [wordb, lit '0', lit 'x', plus hexDigit]

/-- The branch `\b\d+(\.\d+)?\b` of `number_regex`. -/
def decimalNumber : Regex :=
  cat [wordb, plus (cls false [.digit]), opt (cat [lit '.', plus (cls false [.digit])]), wordb]

/-- The part `(\.\d+)?\b` of `number_regex`. -/
def fractionEnd : Regex := seq (opt (cat [lit '.', plus (cls false [.digit])])) wordb

/-- The set `[\s\S]`. -/
def anyChar : Regex := cls false [.space, .notSpace]

/-- The end `\*/` of a block comment. -/
def commentClose : Regex := seq (lit '*') (lit '/')

/-- One item of the body of a string literal: a character other than `"` and
the backslash, or a backslash and a character other than `\n` and `\r`. -/
def isStringItem : List Char → Bool
  | [c] => c != '\x22' && c != '\x5c'
  | [b, c] => b == '\x5c' && c != '\n' && c != '\r'
  | _ => false

/-- The group `[^"\\]|\\.` of `string_literal_regex`. -/
def stringItem : Regex := alt (cls true [.chr '\x22', .chr '\x5c']) (cat [lit '\x5c', dot])

/-- The eleven patterns, in the order in which the cascade tries them. -/
def cascade : List Regex :=
  [comment_regex, string_literal_regex, number_regex, macro_regex, operator_regex,
   function_regex, reserved_word_regex, library_regex, type_regex, delimiter_regex,
   identifier_regex]

/-- The texts from `search_start` on with which the iterations of the loop on
`code` start: the whole text, and the text left after an iteration. -/
inductive Reached (code : List Char) : List Char → Prop
  | start : Reached code code
  | next (rest : List Char) : Reached code rest → rest ≠ [] →
      Reached code (rest.drop (scanStep rest).2)

/-- The lexemes of a token list, concatenated in order. -/
def lexemes (ts : List Token) : List Char := (ts.map Token.value).flatten

/-- The words a pattern can consume when `\b` is left out of account. -/
def Regex.Accepts : Regex → List Char → Prop
  | .lit c, w => w = [c]
  | .cls negated atoms, w => ∃ x, w = [x] ∧ inClass negated atoms x = true
  | .dot, w => ∃ x, w = [x] ∧ x ≠ '\n' ∧ x ≠ '\r'
  | .wordb, w => w = []
  | .eps, w => w = []
  | .seq a b, w => ∃ u v, w = u ++ v ∧ a.Accepts u ∧ b.Accepts v
  | .alt a b, w => a.Accepts w ∨ b.Accepts w
  | .star a, w => ∃ ws : List (List Char), w = ws.flatten ∧ ∀ u ∈ ws, a.Accepts u
  | .starLazy a, w => ∃ ws : List (List Char), w = ws.flatten ∧ ∀ u ∈ ws, a.Accepts u

/-- A lower bound on the length of every match of a pattern. -/
def Regex.minLen : Regex → Nat
  | .lit _ => 1
  | .cls _ _ => 1
  | .dot => 1
  | .wordb => 0
  | .eps => 0
  | .seq a b => a.minLen + b.minLen
  | .alt a b => min a.minLen b.minLen
  | .star _ => 0
  | .starLazy _ => 0

/-! ## The matcher: search and soundness -/

theorem searchFrom_position (r : Regex) (s : List Char) :
    ∀ (pos : Nat) (l : Bool) (m : Match), searchFrom r pos l s = some m → pos ≤ m.position := by
  induction s with
  | nil =>
    intro pos l m h
    simp only [searchFrom, Option.map_eq_some'] at h
    obtain ⟨n, -, rfl⟩ := h
    exact Nat.le_refl _
  | cons c t ih =>
    intro pos l m h
    simp only [searchFrom] at h
    split at h
    · cases h; exact Nat.le_refl _
    · exact Nat.le_of_succ_le (ih _ _ _ h)

/-- A branch of the cascade is taken exactly when the pattern matches at
`search_start` itself, and `match.length()` is then the length of that match. -/
theorem anchored_eq (r : Regex) (s : List Char) : anchored r s = r.matchAt false s := by
  unfold anchored regex_search
  cases s with
  | nil =>
    simp only [searchFrom]
    cases r.matchAt false [] <;> simp
  | cons c t =>
    simp only [searchFrom]
    cases hm : r.matchAt false (c :: t) with
    | some n => simp
    | none =>
      simp only
      cases hs : searchFrom r (0 + 1) (isWord c) t with
      | none => rfl
      | some m =>
        have := searchFrom_position r t _ _ _ hs
        simp only
        rw [if_neg (by omega)]

theorem leftAfter_append (l : Bool) (u v : List Char) :
    leftAfter l (u ++ v) = leftAfter (leftAfter l u) v := by
  simp only [leftAfter, List.foldl_append]

theorem starLoop_sound (body : Bool → List Char → Cont → Option (List Char)) (P : List Char → Prop)
    (hbody : ∀ l s k out, body l s k = some out →
      ∃ w s', s = w ++ s' ∧ P w ∧ k (leftAfter l w) s' = some out) :
    ∀ (n : Nat) (l : Bool) (s : List Char) (k : Cont) (out : List Char),
      starLoop body n l s k = some out →
      ∃ (ws : List (List Char)) (s' : List Char),
        s = ws.flatten ++ s' ∧ (∀ u ∈ ws, P u) ∧ k (leftAfter l ws.flatten) s' = some out := by
  intro n
  induction n with
  | zero =>
    intro l s k out h
    exact ⟨[], s, by simp, by simp, h⟩
  | succ n ih =>
    intro l s k out h
    simp only [starLoop] at h
    cases hr : body l s
        (fun l' s' => if s'.length < s.length then starLoop body n l' s' k else none) with
    | some r =>
      rw [hr] at h
      cases h
      obtain ⟨w1, s1, hs, hP, hk⟩ := hbody _ _ _ _ hr
      split at hk
      · obtain ⟨ws, s2, hs2, hP2, hk2⟩ := ih _ _ _ _ hk
        refine ⟨w1 :: ws, s2, ?_, ?_, ?_⟩
        · simp [hs, hs2]
        · intro u hu
          rcases List.mem_cons.1 hu with rfl | hu
          · exact hP
          · exact hP2 u hu
        · rw [List.flatten_cons, leftAfter_append]; exact hk2
      · cases hk
    | none =>
      rw [hr] at h
      exact ⟨[], s, by simp, by simp, h⟩

theorem lazyLoop_sound (body : Bool → List Char → Cont → Option (List Char)) (P : List Char → Prop)
    (hbody : ∀ l s k out, body l s k = some out →
      ∃ w s', s = w ++ s' ∧ P w ∧ k (leftAfter l w) s' = some out) :
    ∀ (n : Nat) (l : Bool) (s : List Char) (k : Cont) (out : List Char),
      lazyLoop body n l s k = some out →
      ∃ (ws : List (List Char)) (s' : List Char),
        s = ws.flatten ++ s' ∧ (∀ u ∈ ws, P u) ∧ k (leftAfter l ws.flatten) s' = some out := by
  intro n
  induction n with
  | zero =>
    intro l s k out h
    exact ⟨[], s, by simp, by simp, h⟩
  | succ n ih =>
    intro l s k out h
    simp only [lazyLoop] at h
    cases hr : k l s with
    | some r =>
      rw [hr] at h
      cases h
      exact ⟨[], s, by simp, by simp, hr⟩
    | none =>
      rw [hr] at h
      obtain ⟨w1, s1, hs, hP, hk⟩ := hbody _ _ _ _ h
      split at hk
      · obtain ⟨ws, s2, hs2, hP2, hk2⟩ := ih _ _ _ _ hk
        refine ⟨w1 :: ws, s2, ?_, ?_, ?_⟩
        · simp [hs, hs2]
        · intro u hu
          rcases List.mem_cons.1 hu with rfl | hu
          · exact hP
          · exact hP2 u hu
        · rw [List.flatten_cons, leftAfter_append]; exact hk2
      · cases hk

/-- Soundness of the matcher: a successful run consumed a word the pattern
accepts and handed the rest of the text to its continuation. -/
theorem run_sound (r : Regex) :
    ∀ (l : Bool) (s : List Char) (k : Cont) (out : List Char), r.run l s k = some out →
      ∃ w s', s = w ++ s' ∧ r.Accepts w ∧ k (leftAfter l w) s' = some out := by
  induction r with
  | lit c =>
    intro l s k out h
    cases s with
    | nil => simp [Regex.run] at h
    | cons x t =>
      simp only [Regex.run] at h
      split at h
      · next hx => exact ⟨[x], t, rfl, by simp [Regex.Accepts, hx], h⟩
      · cases h
  | cls negated atoms =>
    intro l s k out h
    cases s with
    | nil => simp [Regex.run] at h
    | cons x t =>
      simp only [Regex.run] at h
      split at h
      · next hx => exact ⟨[x], t, rfl, ⟨x, rfl, hx⟩, h⟩
      · cases h
  | dot =>
    intro l s k out h
    cases s with
    | nil => simp [Regex.run] at h
    | cons x t =>
      simp only [Regex.run] at h
      split at h
      · next hx => exact ⟨[x], t, rfl, ⟨x, rfl, hx⟩, h⟩
      · cases h
  | wordb =>
    intro l s k out h
    simp only [Regex.run] at h
    split at h
    · exact ⟨[], s, rfl, rfl, h⟩
    · cases h
  | eps =>
    intro l s k out h
    exact ⟨[], s, rfl, rfl, h⟩
  | seq a b iha ihb =>
    intro l s k out h
    simp only [Regex.run] at h
    obtain ⟨u, s1, hs1, hu, h1⟩ := iha _ _ _ _ h
    obtain ⟨v, s2, hs2, hv, h2⟩ := ihb _ _ _ _ h1
    exact ⟨u ++ v, s2, by simp [hs1, hs2], ⟨u, v, rfl, hu, hv⟩, by rw [leftAfter_append]; exact h2⟩
  | alt a b iha ihb =>
    intro l s k out h
    simp only [Regex.run] at h
    split at h
    · next r hr =>
      cases h
      obtain ⟨u, s1, hs1, hu, h1⟩ := iha _ _ _ _ hr
      exact ⟨u, s1, hs1, Or.inl hu, h1⟩
    · obtain ⟨u, s1, hs1, hu, h1⟩ := ihb _ _ _ _ h
      exact ⟨u, s1, hs1, Or.inr hu, h1⟩
  | star a iha =>
    intro l s k out h
    simp only [Regex.run] at h
    obtain ⟨ws, s1, hs1, hws, h1⟩ := starLoop_sound a.run a.Accepts iha _ _ _ _ _ h
    exact ⟨ws.flatten, s1, hs1, ⟨ws, rfl, hws⟩, h1⟩
  | starLazy a iha =>
    intro l s k out h
    simp only [Regex.run] at h
    obtain ⟨ws, s1, hs1, hws, h1⟩ := lazyLoop_sound a.run a.Accepts iha _ _ _ _ _ h
    exact ⟨ws.flatten, s1, hs1, ⟨ws, rfl, hws⟩, h1⟩

/-- A match at a position is a word the pattern accepts, at the front of the text. -/
theorem matchAt_sound (r : Regex) (l : Bool) (s : List Char) (n : Nat)
    (h : r.matchAt l s = some n) :
    ∃ w s', s = w ++ s' ∧ r.Accepts w ∧ n = w.length := by
  simp only [Regex.matchAt, Option.map_eq_some'] at h
  obtain ⟨out, hrun, rfl⟩ := h
  obtain ⟨w, s1, hs, hw, hk⟩ := run_sound r _ _ _ _ hrun
  have hk' : s1 = out := Option.some.inj hk
  subst hk'
  exact ⟨w, s1, hs, hw, by simp [hs]⟩

theorem accepts_minLen (r : Regex) : ∀ w, r.Accepts w → r.minLen ≤ w.length := by
  induction r with
  | lit c => intro w h; simp only [Regex.Accepts] at h; subst h; simp [Regex.minLen]
  | cls negated atoms => intro w h; obtain ⟨x, rfl, -⟩ := h; simp [Regex.minLen]
  | dot => intro w h; obtain ⟨x, rfl, -⟩ := h; simp [Regex.minLen]
  | wordb => intro w _; simp [Regex.minLen]
  | eps => intro w _; simp [Regex.minLen]
  | seq a b iha ihb =>
    intro w h
    obtain ⟨u, v, rfl, hu, hv⟩ := h
    have := iha u hu
    have := ihb v hv
    simp only [Regex.minLen, List.length_append]
    omega
  | alt a b iha ihb =>
    intro w h
    simp only [Regex.minLen]
    rcases h with h | h
    · exact Nat.le_trans (Nat.min_le_left _ _) (iha w h)
    · exact Nat.le_trans (Nat.min_le_right _ _) (ihb w h)
  | star a _ => intro w _; simp [Regex.minLen]
  | starLazy a _ => intro w _; simp [Regex.minLen]

/-! ## The scan loop: every iteration advances -/

theorem anchored_sound (r : Regex) (s : List Char) (n : Nat) (h : anchored r s = some n) :
    ∃ w s', s = w ++ s' ∧ r.Accepts w ∧ n = w.length := by
  rw [anchored_eq] at h
  exact matchAt_sound r false s n h

theorem anchored_bounds (r : Regex) (hr : 1 ≤ r.minLen) (s : List Char) (n : Nat)
    (h : anchored r s = some n) : 1 ≤ n ∧ n ≤ s.length := by
  obtain ⟨w, s', rfl, hw, rfl⟩ := anchored_sound r s n h
  have := accepts_minLen r w hw
  simp only [List.length_append]
  omega

theorem anchored_take (r : Regex) (s : List Char) (n : Nat) (h : anchored r s = some n) :
    r.Accepts (s.take n) := by
  obtain ⟨w, s', rfl, hw, rfl⟩ := anchored_sound r s n h
  simpa using hw

/-- One pass through the cascade moves `search_start` by at least one character
and not beyond the end of the text. -/
theorem scanStep_advance (s : List Char) (hs : s ≠ []) :
    1 ≤ (scanStep s).2 ∧ (scanStep s).2 ≤ s.length := by
  have hlen : 1 ≤ s.length := by
    cases s with
    | nil => exact absurd rfl hs
    | cons c t => simp
  unfold scanStep
  repeat' split
  all_goals first
    | exact anchored_bounds comment_regex (by decide) s _ (by assumption)
    | exact anchored_bounds string_literal_regex (by decide) s _ (by assumption)
    | exact anchored_bounds number_regex (by decide) s _ (by assumption)
    | exact anchored_bounds macro_regex (by decide) s _ (by assumption)
    | exact anchored_bounds operator_regex (by decide) s _ (by assumption)
    | exact anchored_bounds function_regex (by decide) s _ (by assumption)
    | exact anchored_bounds reserved_word_regex (by decide) s _ (by assumption)
    | exact anchored_bounds library_regex (by decide) s _ (by assumption)
    | exact anchored_bounds type_regex (by decide) s _ (by assumption)
    | exact anchored_bounds delimiter_regex (by decide) s _ (by assumption)
    | exact anchored_bounds identifier_regex (by decide) s _ (by assumption)
    | exact ⟨Nat.le_refl 1, hlen⟩

theorem loop_shift (code : List Char) (p : Nat) (hp : p ≤ code.length) (acc : List Token) :
    ∀ (fuel q : Nat) (acc' : List Token),
      loop code fuel ⟨p + q, acc ++ acc'⟩ =
        ⟨p + (loop (code.drop p) fuel ⟨q, acc'⟩).search_start,
         acc ++ (loop (code.drop p) fuel ⟨q, acc'⟩).tokens⟩ := by
  intro fuel
  induction fuel with
  | zero => intro q acc'; rfl
  | succ fuel ih =>
    intro q acc'
    simp only [loop, List.length_drop]
    by_cases hq : p + q = code.length
    · have hq' : q = code.length - p := by omega
      rw [if_neg (by simpa using hq), if_neg (by simpa using hq')]
    · have hq' : q ≠ code.length - p := by omega
      simp only [ne_eq, hq, not_false_eq_true, if_true, hq', iteration, List.drop_drop]
      have h1 : p + q + (scanStep (List.drop (p + q) code)).2 =
          p + (q + (scanStep (List.drop (p + q) code)).2) := by omega
      have h2 : acc ++ acc' ++ (scanStep (List.drop (p + q) code)).1 =
          acc ++ (acc' ++ (scanStep (List.drop (p + q) code)).1) := by simp
      rw [h1, h2, ih]

theorem loop_complete :
    ∀ (n : Nat) (code : List Char), code.length ≤ n → ∀ fuel, code.length ≤ fuel →
      loop code fuel ⟨0, []⟩ = ⟨code.length, tokenize code⟩ ∧
      (code ≠ [] →
        tokenize code = (scanStep code).1 ++ tokenize (code.drop (scanStep code).2)) := by
  intro n
  induction n with
  | zero =>
    intro code hc fuel _
    have : code = [] := List.eq_nil_of_length_eq_zero (by omega)
    subst this
    refine ⟨?_, fun h => absurd rfl h⟩
    cases fuel <;> simp [loop, tokenize]
  | succ n ih =>
    intro code hc fuel hf
    by_cases hnil : code = []
    · subst hnil
      refine ⟨?_, fun h => absurd rfl h⟩
      cases fuel <;> simp [loop, tokenize]
    · obtain ⟨h1, h2⟩ := scanStep_advance code hnil
      have hdrop : (code.drop (scanStep code).2).length ≤ n := by
        simp only [List.length_drop]; omega
      have key : ∀ f, code.length ≤ f + 1 →
          loop code (f + 1) ⟨0, []⟩ =
            ⟨code.length, (scanStep code).1 ++ tokenize (code.drop (scanStep code).2)⟩ := by
        intro f hf'
        have hpos : (0 : Nat) ≠ code.length := by omega
        simp only [loop, ne_eq, hpos, not_false_eq_true, if_true, iteration, List.drop_zero,
          Nat.zero_add, List.nil_append]
        have := loop_shift code (scanStep code).2 h2 (scanStep code).1 f 0 []
        simp only [Nat.add_zero, List.append_nil] at this
        rw [this, (ih _ hdrop f (by simp only [List.length_drop]; omega)).1]
        simp only [List.length_drop]
        congr 1
        omega
      have hlen : code.length = (code.length - 1) + 1 := by omega
      have htok : tokenize code =
          (scanStep code).1 ++ tokenize (code.drop (scanStep code).2) := by
        show (loop code code.length ⟨0, []⟩).tokens = _
        rw [hlen, key _ (by omega)]
      refine ⟨?_, fun _ => htok⟩
      obtain ⟨f, rfl⟩ : ∃ f, fuel = f + 1 := ⟨fuel - 1, by omega⟩
      rw [key f hf, htok]

/-- Unfolding of `tokenize`: the tokens of one pass, then the tokens of the text
that remains. -/
theorem tokenize_cons (code : List Char) (h : code ≠ []) :
    tokenize code = (scanStep code).1 ++ tokenize (code.drop (scanStep code).2) :=
  (loop_complete code.length code (Nat.le_refl _) code.length (Nat.le_refl _)).2 h

theorem tokenize_nil : tokenize [] = [] := rfl

/-! ## Shapes of the matches of the two special branches -/

theorem findFrom_append (c : Char) (a t : List Char) (ha : c ∉ a) :
    ∀ i, findFrom c (a ++ c :: t) i = i + a.length := by
  induction a with
  | nil => intro i; simp [findFrom]
  | cons x a ih =>
    intro i
    have hx : x ≠ c := fun h => ha (by simp [h])
    have ha' : c ∉ a := fun h => ha (List.mem_cons_of_mem _ h)
    show findFrom c (x :: (a ++ c :: t)) i = _
    rw [findFrom, if_neg hx, ih ha', List.length_cons]
    omega

theorem flatten_singletons (p : Char → Prop) (ws : List (List Char))
    (h : ∀ u ∈ ws, ∃ x, u = [x] ∧ p x) : ∀ c ∈ ws.flatten, p c := by
  intro c hc
  obtain ⟨u, hu, hcu⟩ := List.mem_flatten.1 hc
  obtain ⟨x, rfl, hx⟩ := h u hu
  rw [List.mem_singleton] at hcu
  exact hcu ▸ hx

/-- A match of `function_regex` ends with its only `(`. -/
theorem function_accepts (w : List Char) (h : function_regex.Accepts w) :
    ∃ a, w = a ++ ['('] ∧ '(' ∉ a := by
  simp only [function_regex, identStart, identChar, Regex.cat, Regex.Accepts] at h
  obtain ⟨u0, v0, rfl, rfl, u1, v1, rfl, ⟨x, rfl, hx⟩, u2, v2, rfl, ⟨ws2, rfl, h2⟩,
    u3, v3, rfl, ⟨ws3, rfl, h3⟩, rfl⟩ := h
  refine ⟨[x] ++ (ws2.flatten ++ ws3.flatten), by simp, ?_⟩
  have hne : ∀ (neg : Bool) (atoms : List ClassAtom), inClass neg atoms '(' = false →
      ∀ ws : List (List Char), (∀ u ∈ ws, ∃ y, u = [y] ∧ inClass neg atoms y = true) →
      '(' ∉ ws.flatten := by
    intro neg atoms hp ws hws hmem
    have := flatten_singletons (fun y => inClass neg atoms y = true) ws hws _ hmem
    simp [hp] at this
  intro hmem
  simp only [List.mem_append, List.mem_singleton] at hmem
  rcases hmem with hm | hm | hm
  · subst hm; revert hx; decide
  · exact hne _ _ (by decide) ws2 h2 hm
  · exact hne _ _ (by decide) ws3 h3 hm

/-- A match of `library_regex` starts with `use`. -/
theorem library_accepts (w : List Char) (h : library_regex.Accepts w) :
    ∃ t, w = 'u' :: 's' :: 'e' :: t := by
  simp only [library_regex, Regex.cat, Regex.Accepts] at h
  obtain ⟨u0, v0, rfl, rfl, u1, v1, rfl, rfl, u2, v2, rfl, rfl, -⟩ := h
  exact ⟨v2, rfl⟩

/-- The two tokens of the Function branch together are the whole match. -/
theorem function_split (w : List Char) (h : function_regex.Accepts w) :
    substr w 0 (find w '(' 0) ++ "(".toList = w := by
  obtain ⟨a, rfl, ha⟩ := function_accepts w h
  have : find (a ++ ['(']) '(' 0 = a.length := by
    simp only [find, List.drop_zero]
    rw [findFrom_append _ _ _ ha]; omega
  simp [this, substr]

/-- Except in the library-import branch, the lexemes pushed by one pass are the
text the pass moves over. -/
theorem scanStep_lexemes (s : List Char) (hlib : anchored library_regex s = none) :
    lexemes (scanStep s).1 = s.take (scanStep s).2 := by
  unfold scanStep
  repeat' split
  all_goals first
    | simp [lexemes]; done
    | (have hf := function_split _ (anchored_take function_regex s _ (by assumption))
       simpa [lexemes] using hf)
    | (rename_i h1; rw [hlib] at h1; cases h1)

theorem anchored_library_use (s : List Char) (n : Nat) (h : anchored library_regex s = some n) :
    "use".toList <:+: s := by
  obtain ⟨w, s', rfl, hw, -⟩ := anchored_sound _ _ _ h
  obtain ⟨t, rfl⟩ := library_accepts w hw
  exact ⟨[], t ++ s', by simp⟩

/-! ## C1 to C3: reconstruction, termination, coverage -/

/-- C1: for every input that does not contain the substring `use`, the lexemes
of `tokenize input`, concatenated in output order, are exactly the input; this
includes the Function branch, whose two tokens together are the whole match. -/
theorem tokenize_lexemes_concat (input : List Char) (h : ¬ "use".toList <:+: input) :
    lexemes (tokenize input) = input := by
  generalize hn : input.length = n
  induction n using Nat.strong_induction_on generalizing input with
  | _ n ih =>
    by_cases hnil : input = []
    · subst hnil; rfl
    · obtain ⟨h1, h2⟩ := scanStep_advance input hnil
      have hlib : anchored library_regex input = none := by
        cases hl : anchored library_regex input with
        | none => rfl
        | some m => exact absurd (anchored_library_use _ _ hl) h
      have hrest : ¬ "use".toList <:+: input.drop (scanStep input).2 :=
        fun hi => h (List.IsInfix.trans hi (List.drop_suffix _ _).isInfix)
      have hlen : (input.drop (scanStep input).2).length < n := by
        simp only [List.length_drop]; omega
      rw [tokenize_cons input hnil]
      have := ih _ hlen _ hrest rfl
      simp only [lexemes, List.map_append, List.flatten_append] at this ⊢
      rw [this]
      have h3 := scanStep_lexemes input hlib
      simp only [lexemes] at h3
      rw [h3, List.take_append_drop]

theorem tokenize_lexemes_concat_witness :
    ¬ "use".toList <:+: "f (x) + g!(1)".toList ∧
      lexemes (tokenize "f (x) + g!(1)".toList) = "f (x) + g!(1)".toList :=
  ⟨by decide, tokenize_lexemes_concat _ (by decide)⟩

/-- C2: `tokenize` terminates. A winning match of any of the eleven patterns has
a length between 1 and the length of the remaining text, the fallback moves by
exactly 1, so an iteration on a non-empty remaining text moves `search_start`
forward by at least one character and never past the end; with one iteration
allowed per character (or more) the loop ends with `search_start` exactly at the
length of the input, and returns the tokens of `tokenize`. -/
theorem tokenize_terminates (code : List Char) :
    (∀ r ∈ [comment_regex, string_literal_regex, number_regex, macro_regex, operator_regex,
          function_regex, reserved_word_regex, library_regex, type_regex, delimiter_regex,
          identifier_regex],
        ∀ (rest : List Char) (n : Nat), anchored r rest = some n → 1 ≤ n ∧ n ≤ rest.length) ∧
    (∀ rest : List Char,
        (∀ r ∈ [comment_regex, string_literal_regex, number_regex, macro_regex, operator_regex,
          function_regex, reserved_word_regex, library_regex, type_regex, delimiter_regex,
          identifier_regex], anchored r rest = none) →
        scanStep rest = ([⟨rest.take 1, .Unknown⟩], 1)) ∧
    (∀ st : LoopState, st.search_start < code.length →
        st.search_start < (iteration code st).search_start ∧
        (iteration code st).search_start ≤ code.length) ∧
    (∀ fuel, code.length ≤ fuel → loop code fuel ⟨0, []⟩ = ⟨code.length, tokenize code⟩) := by
  refine ⟨?_, ?_, ?_, ?_⟩
  · intro r hr rest n h
    simp only [List.mem_cons, List.mem_singleton, List.not_mem_nil, or_false] at hr
    rcases hr with rfl | rfl | rfl | rfl | rfl | rfl | rfl | rfl | rfl | rfl | rfl <;>
      exact anchored_bounds _ (by decide) rest n h
  · intro rest h
    simp only [List.mem_cons, List.mem_singleton, List.not_mem_nil, or_false, forall_eq_or_imp,
      forall_eq] at h
    obtain ⟨h1, h2, h3, h4, h5, h6, h7, h8, h9, h10, h11⟩ := h
    simp [scanStep, h1, h2, h3, h4, h5, h6, h7, h8, h9, h10, h11]
  · intro st hst
    have hne : code.drop st.search_start ≠ [] := by
      intro h
      have := congrArg List.length h
      simp only [List.length_drop, List.length_nil] at this
      omega
    obtain ⟨h1, h2⟩ := scanStep_advance _ hne
    simp only [List.length_drop] at h2
    simp only [iteration]
    omega
  · intro fuel hf
    exact (loop_complete code.length code (Nat.le_refl _) fuel hf).1

/-- C3: for every non-empty input, `tokenize` returns a non-empty token list. -/
theorem tokenize_nonempty (input : List Char) (h : input ≠ []) : tokenize input ≠ [] := by
  rw [tokenize_cons input h]
  have : (scanStep input).1 ≠ [] := by
    unfold scanStep
    repeat' split
    all_goals simp
  simp [this]

theorem tokenize_nonempty_witness : "@".toList ≠ [] ∧ tokenize "@".toList ≠ [] :=
  ⟨by decide, tokenize_nonempty _ (by decide)⟩

/-! ## Greedy repetition over a run of characters -/

theorem oneChar_cls (negated : Bool) (atoms : List ClassAtom) :
    OneChar (Regex.cls negated atoms).run (inClass negated atoms) :=
  ⟨fun _ _ => rfl, fun _ _ _ _ => rfl⟩

theorem oneChar_dot : OneChar Regex.dot.run (fun c => decide (c ≠ '\n' ∧ c ≠ '\r')) :=
  ⟨fun _ _ => rfl, fun l c t k => by simp [Regex.run]⟩

/-- Greedy repetition of a one-character body over a maximal run `w`: when the
continuation fails wherever the next character still belongs to the set, the
result is the continuation's, at the end of the run. -/
theorem starLoop_run (body : Bool → List Char → Cont → Option (List Char)) (p : Char → Bool)
    (hbody : OneChar body p) (k : Cont) (L : Bool → Prop)
    (hL : ∀ c, p c = true → L (isWord c))
    (hk : ∀ l', L l' → ∀ c t, p c = true → k l' (c :: t) = none)
    (rest : List Char) (hrest : ∀ c t, rest = c :: t → p c = false) :
    ∀ (w : List Char), (∀ c ∈ w, p c = true) → ∀ (l : Bool), L l → ∀ (n : Nat),
      (w ++ rest).length ≤ n →
      starLoop body n l (w ++ rest) k = k (leftAfter l w) rest := by
  intro w
  induction w with
  | nil =>
    intro _ l _ n _
    cases n with
    | zero => rfl
    | succ n =>
      simp only [starLoop, List.nil_append, leftAfter, List.foldl_nil]
      cases rest with
      | nil => rw [hbody.1]
      | cons c t => rw [hbody.2, if_neg (by simp [hrest c t rfl])]
  | cons c w ih =>
    intro hw l hl n hn
    have hc : p c = true := hw c (List.mem_cons_self _ _)
    have hw' : ∀ x ∈ w, p x = true := fun x hx => hw x (List.mem_cons_of_mem _ hx)
    cases n with
    | zero => simp at hn
    | succ n =>
      have hn' : (w ++ rest).length ≤ n := by simpa using hn
      simp only [starLoop, List.cons_append, hbody.2, if_pos hc, List.length_cons,
        Nat.lt_succ_self, if_true]
      rw [ih hw' _ (hL c hc) n hn']
      have : leftAfter l (c :: w) = leftAfter (isWord c) w := rfl
      rw [this]
      cases hks : k (leftAfter (isWord c) w) rest with
      | some r => rfl
      | none => exact hk l hl c _ hc

/-- Greedy repetition of a one-character body over a maximal run `w`: when the
continuation succeeds at the end of the run, that is the result. -/
theorem starLoop_run_some (body : Bool → List Char → Cont → Option (List Char)) (p : Char → Bool)
    (hbody : OneChar body p) (k : Cont) (rest out : List Char)
    (hrest : ∀ c t, rest = c :: t → p c = false) :
    ∀ (w : List Char), (∀ c ∈ w, p c = true) → ∀ (l : Bool),
      k (leftAfter l w) rest = some out → ∀ (n : Nat), (w ++ rest).length ≤ n →
      starLoop body n l (w ++ rest) k = some out := by
  intro w
  induction w with
  | nil =>
    intro _ l hk n _
    simp only [leftAfter, List.foldl_nil] at hk
    cases n with
    | zero => exact hk
    | succ n =>
      simp only [starLoop, List.nil_append]
      cases rest with
      | nil => rw [hbody.1]; exact hk
      | cons c t => rw [hbody.2, if_neg (by simp [hrest c t rfl])]; exact hk
  | cons c w ih =>
    intro hw l hk n hn
    have hc : p c = true := hw c (List.mem_cons_self _ _)
    have hw' : ∀ x ∈ w, p x = true := fun x hx => hw x (List.mem_cons_of_mem _ hx)
    cases n with
    | zero => simp at hn
    | succ n =>
      have hn' : (w ++ rest).length ≤ n := by simpa using hn
      simp only [starLoop, List.cons_append, hbody.2, if_pos hc, List.length_cons,
        Nat.lt_succ_self, if_true]
      rw [ih hw' _ hk n hn']

/-! ## Facts about characters -/

theorem char_le_iff (a b : Char) : a ≤ b ↔ a.toNat ≤ b.toNat := Iff.rfl

theorem identStart_class (c : Char) :
    inClass false [.range 'a' 'z', .range 'A' 'Z', .chr '_'] c = isIdentStart c := by
  simp [inClass, ClassAtom.test, isLetter, isIdentStart, Bool.or_assoc]

theorem identChar_class (c : Char) :
    inClass false [.range 'a' 'z', .range 'A' 'Z', .range '0' '9', .chr '_'] c = isWord c := by
  simp [inClass, ClassAtom.test, isLetter, isWord, isDigit, Bool.or_assoc]

theorem space_class (c : Char) : inClass false [.space] c = isSpace c := by
  simp [inClass, ClassAtom.test]

theorem digit_class (c : Char) : inClass false [.digit] c = isDigit c := by
  simp [inClass, ClassAtom.test]

theorem isIdentStart_isWord (c : Char) (h : isIdentStart c = true) : isWord c = true := by
  simp only [isIdentStart, Bool.or_eq_true] at h
  simp only [isWord, Bool.or_eq_true]
  rcases h with h | h
  · exact Or.inl (Or.inl h)
  · exact Or.inr h

theorem isIdentStart_not_digit (c : Char) (h : isIdentStart c = true) : isDigit c = false := by
  simp only [isIdentStart, isLetter, char_le_iff, Bool.or_eq_true, Bool.and_eq_true,
    decide_eq_true_eq, beq_iff_eq] at h
  simp only [isDigit, char_le_iff, Bool.and_eq_false_iff, decide_eq_false_iff_not]
  have h0 : ('0' : Char).toNat = 48 := rfl
  have h1 : ('9' : Char).toNat = 57 := rfl
  have h2 : ('a' : Char).toNat = 97 := rfl
  have h3 : ('z' : Char).toNat = 122 := rfl
  have h4 : ('A' : Char).toNat = 65 := rfl
  have h5 : ('Z' : Char).toNat = 90 := rfl
  have h6 : ('_' : Char).toNat = 95 := rfl
  rcases h with h | rfl <;> omega

theorem isWord_ne (c x : Char) (h : isWord c = true) (hx : isWord x = false) : c ≠ x := by
  rintro rfl; rw [h] at hx; cases hx

theorem isWord_not_space (c : Char) (h : isWord c = true) : isSpace c = false := by
  cases hs : isSpace c with
  | false => rfl
  | true =>
    simp only [isSpace, Bool.or_eq_true, beq_iff_eq] at hs
    rcases hs with ((((rfl | rfl) | rfl) | rfl) | rfl) | rfl <;> revert h <;> decide

/-! ## Patterns that cannot start with the character at the position -/

theorem matchAt_of_run (r : Regex) (l : Bool) (w s' : List Char)
    (h : r.run l (w ++ s') (fun _ x => some x) = some s') :
    r.matchAt l (w ++ s') = some w.length := by
  simp [Regex.matchAt, h]

theorem matchAt_none_of_run (r : Regex) (l : Bool) (s : List Char)
    (h : r.run l s (fun _ x => some x) = none) : r.matchAt l s = none := by
  simp [Regex.matchAt, h]

theorem comment_none (c : Char) (u : List Char) (hc : c ≠ '/') :
    anchored comment_regex (c :: u) = none := by
  rw [anchored_eq]
  apply matchAt_none_of_run
  simp [comment_regex, Regex.cat, Regex.run, hc]

theorem string_literal_none (c : Char) (u : List Char) (hc : c ≠ '\x22') :
    anchored string_literal_regex (c :: u) = none := by
  rw [anchored_eq]
  apply matchAt_none_of_run
  simp [string_literal_regex, Regex.cat, Regex.run, hc]

theorem number_none (c : Char) (u : List Char) (hc : isDigit c = false) :
    anchored number_regex (c :: u) = none := by
  rw [anchored_eq]
  apply matchAt_none_of_run
  have h0 : c ≠ '0' := by rintro rfl; revert hc; decide
  simp [number_regex, Regex.cat, Regex.run, Regex.plus, Regex.opt, hc, h0, digit_class]

theorem operator_none (c : Char) (u : List Char)
    (hc : inClass false (chars "+-*/=<>!&|%.:") c = false) :
    anchored operator_regex (c :: u) = none := by
  rw [anchored_eq]
  apply matchAt_none_of_run
  simp [inClass, chars, ClassAtom.test] at hc
  simp [operator_regex, Regex.cat, Regex.run, Regex.anyOf, Regex.rep12, Regex.opt, Regex.word,
    inClass, chars, ClassAtom.test, hc]

theorem delimiter_none (c : Char) (u : List Char)
    (hc : inClass false (chars "\x7b\x7d();,.:") c = false) :
    anchored delimiter_regex (c :: u) = none := by
  rw [anchored_eq]
  apply matchAt_none_of_run
  simp [delimiter_regex, Regex.run, hc]

/-! ## Patterns that start with an identifier -/

theorem oneChar_identChar : OneChar identChar.run isWord := by
  refine ⟨fun _ _ => rfl, fun l c t k => ?_⟩
  simp only [identChar, Regex.run, identChar_class]

theorem oneChar_space : OneChar (Regex.cls false [.space]).run isSpace := by
  refine ⟨fun _ _ => rfl, fun l c t k => ?_⟩
  simp only [Regex.run, space_class]

theorem leftAfter_word (w : List Char) (hw : ∀ x ∈ w, isWord x = true) :
    leftAfter true w = true := by
  induction w with
  | nil => rfl
  | cons c w ih =>
    have hc : isWord c = true := hw c (List.mem_cons_self _ _)
    show leftAfter (isWord c) w = true
    rw [hc]
    exact ih (fun x hx => hw x (List.mem_cons_of_mem _ hx))

theorem not_in_chars (s : String) (hs : s.toList.all (fun x => !isWord x) = true) (c : Char)
    (hc : isWord c = true) : inClass false (chars s) c = false := by
  cases h : inClass false (chars s) c with
  | false => rfl
  | true =>
    simp only [inClass, Bool.false_bne, List.any_eq_true] at h
    obtain ⟨a, ha, hac⟩ := h
    obtain ⟨x, hx, rfl⟩ := List.mem_map.1 ha
    simp only [ClassAtom.test, beq_iff_eq] at hac
    subst hac
    have := List.all_eq_true.1 hs c hx
    simp [hc] at this

theorem run_seq (a b : Regex) (l : Bool) (s : List Char) (k : Cont) :
    (seq a b).run l s k = a.run l s (fun l' s' => b.run l' s' k) := rfl

theorem run_star (a : Regex) (l : Bool) (s : List Char) (k : Cont) :
    (star a).run l s k = starLoop a.run s.length l s k := rfl

theorem run_wordb (l : Bool) (s : List Char) (k : Cont) :
    wordb.run l s k = if (l != nextIsWord s) = true then k l s else none := rfl

theorem run_lit_cons (c x : Char) (l : Bool) (t : List Char) (k : Cont) :
    (lit c).run l (x :: t) k = if x = c then k (isWord x) t else none := rfl

theorem run_lit_nil (c : Char) (l : Bool) (k : Cont) : (lit c).run l [] k = none := rfl

theorem run_cls_cons (negated : Bool) (atoms : List ClassAtom) (x : Char) (l : Bool)
    (t : List Char) (k : Cont) :
    (cls negated atoms).run l (x :: t) k =
      if inClass negated atoms x = true then k (isWord x) t else none := rfl

theorem run_cls_nil (negated : Bool) (atoms : List ClassAtom) (l : Bool) (k : Cont) :
    (cls negated atoms).run l [] k = none := rfl

theorem run_identStart_cons (x : Char) (l : Bool) (t : List Char) (k : Cont) :
    identStart.run l (x :: t) k = if isIdentStart x = true then k (isWord x) t else none := by
  simp only [identStart, run_cls_cons, identStart_class]

/-- An identifier at the position, up to the first character that is not a
word character: the pattern `[a-zA-Z_][a-zA-Z0-9_]*R` goes on with `R` there,
provided `R` cannot start in front of a word character. -/
theorem ident_then (R : Regex) (k : Cont) (l : Bool) (c : Char) (t rest : List Char)
    (hc : isIdentStart c = true) (ht : ∀ x ∈ t, isWord x = true)
    (hrest : ∀ x u, rest = x :: u → isWord x = false)
    (hR : ∀ x u, isWord x = true → R.run true (x :: u) k = none) :
    (seq identStart (seq (star identChar) R)).run l (c :: (t ++ rest)) k = R.run true rest k := by
  rw [run_seq, run_identStart_cons, if_pos hc]
  show (seq (star identChar) R).run (isWord c) (t ++ rest) k = _
  rw [run_seq, run_star]
  have := starLoop_run identChar.run isWord oneChar_identChar (fun l' s' => R.run l' s' k)
    (fun b => b = true) (fun _ h => h) (fun l' hl' x u hx => by subst hl'; exact hR x u hx)
    rest hrest t ht (isWord c) (isIdentStart_isWord c hc) (t ++ rest).length (Nat.le_refl _)
  rw [this, isIdentStart_isWord c hc, leftAfter_word t ht]

theorem macro_run (k : Cont) (l : Bool) (c : Char) (t rest : List Char)
    (hc : isIdentStart c = true) (ht : ∀ x ∈ t, isWord x = true)
    (hrest : ∀ x u, rest = x :: u → isWord x = false) :
    macro_regex.run l (c :: (t ++ rest)) k = (lit '!').run true rest k := by
  simp only [macro_regex, Regex.cat]
  apply ident_then _ _ _ _ _ _ hc ht hrest
  intro x u hx
  have : x ≠ '!' := isWord_ne x '!' hx (by decide)
  simp [Regex.run, this]

theorem spaces_then_paren (k : Cont) (l : Bool) (ws rest : List Char)
    (hws : ∀ x ∈ ws, isSpace x = true) (hrest : ∀ x u, rest = x :: u → isSpace x = false) :
    (seq (star (cls false [.space])) (lit '(')).run l (ws ++ rest) k =
      (lit '(').run (leftAfter l ws) rest k := by
  rw [run_seq, run_star]
  exact starLoop_run (Regex.cls false [.space]).run isSpace oneChar_space
    (fun l' s' => (lit '(').run l' s' k) (fun _ => True) (fun _ _ => trivial)
    (fun l' _ x u hx => by
      have : x ≠ '(' := by rintro rfl; revert hx; decide
      simp [Regex.run, this])
    rest hrest ws hws l trivial (ws ++ rest).length (Nat.le_refl _)

theorem function_run (k : Cont) (c : Char) (t rest : List Char)
    (hc : isIdentStart c = true) (ht : ∀ x ∈ t, isWord x = true)
    (hrest : ∀ x u, rest = x :: u → isWord x = false) :
    function_regex.run false (c :: (t ++ rest)) k =
      (seq (star (cls false [.space])) (lit '(')).run true rest k := by
  have hw := isIdentStart_isWord c hc
  simp only [function_regex, Regex.cat]
  rw [show (seq wordb (seq identStart (seq (star identChar)
      (seq (star (cls false [.space])) (lit '('))))).run false (c :: (t ++ rest)) k =
    (seq identStart (seq (star identChar)
      (seq (star (cls false [.space])) (lit '(')))).run false (c :: (t ++ rest)) k by
    rw [run_seq, run_wordb]; simp [nextIsWord, hw]]
  apply ident_then _ _ _ _ _ _ hc ht hrest
  intro x u hx
  have h1 := spaces_then_paren k true [] (x :: u) (by simp)
    (fun y v h => by cases h; exact isWord_not_space _ hx)
  simp only [List.nil_append] at h1
  rw [h1]
  have : x ≠ '(' := isWord_ne x '(' hx (by decide)
  simp [Regex.run, this]

theorem identifier_run (k : Cont) (c : Char) (t rest : List Char)
    (hc : isIdentStart c = true) (ht : ∀ x ∈ t, isWord x = true)
    (hrest : ∀ x u, rest = x :: u → isWord x = false) :
    identifier_regex.run false (c :: (t ++ rest)) k = k true rest := by
  have hw := isIdentStart_isWord c hc
  simp only [identifier_regex, Regex.cat]
  rw [show (seq wordb (seq identStart (seq (star identChar) wordb))).run false
      (c :: (t ++ rest)) k =
    (seq identStart (seq (star identChar) wordb)).run false (c :: (t ++ rest)) k by
    rw [run_seq, run_wordb]; simp [nextIsWord, hw]]
  rw [ident_then _ _ _ _ _ _ hc ht hrest]
  · have : nextIsWord rest = false := by
      cases rest with
      | nil => rfl
      | cons x u => exact hrest x u rfl
    simp [Regex.run, this]
  · intro x u hx
    simp [Regex.run, nextIsWord, hx]

/-! ## C4: macros -/

theorem isIdentifier_cases (w : List Char) (hw : isIdentifier w = true) :
    ∃ c t, w = c :: t ∧ isIdentStart c = true ∧ ∀ x ∈ t, isWord x = true := by
  cases w with
  | nil => cases hw
  | cons c t =>
    simp only [isIdentifier, Bool.and_eq_true, List.all_eq_true] at hw
    exact ⟨c, t, rfl, hw.1, hw.2⟩

theorem anchored_of_run (r : Regex) (w s' : List Char)
    (h : r.run false (w ++ s') (fun _ x => some x) = some s') :
    anchored r (w ++ s') = some w.length := by
  rw [anchored_eq]; exact matchAt_of_run r false w s' h

theorem anchored_none_of_run (r : Regex) (s : List Char)
    (h : r.run false s (fun _ x => some x) = none) : anchored r s = none := by
  rw [anchored_eq]; exact matchAt_none_of_run r false s h

/-- The three patterns tried before Macro do not match in front of an identifier. -/
theorem before_macro_none (c : Char) (u : List Char) (hc : isIdentStart c = true) :
    anchored comment_regex (c :: u) = none ∧ anchored string_literal_regex (c :: u) = none ∧
      anchored number_regex (c :: u) = none := by
  have hw := isIdentStart_isWord c hc
  exact ⟨comment_none c u (isWord_ne c '/' hw (by decide)),
    string_literal_none c u (isWord_ne c '\x22' hw (by decide)),
    number_none c u (isIdentStart_not_digit c hc)⟩

theorem tokenize_of_step (m rest : List Char) (toks : List Token) (hm : m ≠ [])
    (h : scanStep (m ++ rest) = (toks, m.length)) :
    tokenize (m ++ rest) = toks ++ tokenize rest := by
  rw [tokenize_cons _ (by simp [hm]), h]
  simp only [List.drop_left]

theorem scanStep_macro (s : List Char) (n : Nat)
    (h1 : anchored comment_regex s = none) (h2 : anchored string_literal_regex s = none)
    (h3 : anchored number_regex s = none) (h4 : anchored macro_regex s = some n) :
    scanStep s = ([⟨s.take n, .Macro⟩], n) := by
  simp only [scanStep, h1, h2, h3, h4]

/-- C4: an identifier followed by `!` is one Macro token, whatever follows, and
the text after the `!` is tokenized as if it were scanned on its own. -/
theorem tokenize_macro (w rest : List Char) (hw : isIdentifier w = true) :
    tokenize (w ++ "!".toList ++ rest) = ⟨w ++ "!".toList, .Macro⟩ :: tokenize rest := by
  obtain ⟨c, t, rfl, hc, ht⟩ := isIdentifier_cases w hw
  obtain ⟨h1, h2, h3⟩ := before_macro_none c (t ++ "!".toList ++ rest) hc
  have h4 : anchored macro_regex (c :: t ++ "!".toList ++ rest) =
      some (c :: t ++ "!".toList).length := by
    apply anchored_of_run
    have := macro_run (fun _ x => some x) false c t ('!' :: rest) hc ht
      (fun x u h => by cases h; decide)
    simpa [run_lit_cons] using this
  have hstep := scanStep_macro (c :: t ++ "!".toList ++ rest) _ h1 h2 h3 h4
  rw [List.take_left] at hstep
  exact tokenize_of_step _ rest _ (by simp) hstep

theorem tokenize_macro_witness :
    isIdentifier "foo".toList = true ∧
      tokenize "foo!".toList = [⟨"foo!".toList, .Macro⟩] ∧
      isIdentifier "x".toList = true ∧
      tokenize "x!=y".toList = ⟨"x!".toList, .Macro⟩ :: tokenize "=y".toList :=
  ⟨by decide, tokenize_macro "foo".toList [] (by decide), by decide,
    tokenize_macro "x".toList "=y".toList (by decide)⟩

/-! ## C5 and C6: functions -/

theorem operator_none_word (c : Char) (u : List Char) (hc : isWord c = true) :
    anchored operator_regex (c :: u) = none :=
  operator_none c u (not_in_chars _ (by decide) c hc)

theorem scanStep_function (s : List Char) (n : Nat)
    (h1 : anchored comment_regex s = none) (h2 : anchored string_literal_regex s = none)
    (h3 : anchored number_regex s = none) (h4 : anchored macro_regex s = none)
    (h5 : anchored operator_regex s = none) (h6 : anchored function_regex s = some n) :
    scanStep s = ([⟨substr (s.take n) 0 (find (s.take n) '(' 0), .Function⟩,
      ⟨"(".toList, .Delimiter⟩], n) := by
  simp only [scanStep, h1, h2, h3, h4, h5, h6]

theorem isBlank_isSpace (c : Char) (h : isBlank c = true) : isSpace c = true := by
  simp only [isBlank, Bool.or_eq_true, beq_iff_eq] at h
  rcases h with (rfl | rfl) | rfl <;> decide

/-- The Function branch: an identifier, whitespace, `(`. The Function lexeme is
the match without its last character. -/
theorem function_tokens (w ws rest : List Char) (hw : isIdentifier w = true)
    (hws : ∀ x ∈ ws, isSpace x = true) :
    tokenize (w ++ ws ++ "(".toList ++ rest) =
      ⟨w ++ ws, .Function⟩ :: ⟨"(".toList, .Delimiter⟩ :: tokenize rest := by
  obtain ⟨c, t, rfl, hc, ht⟩ := isIdentifier_cases w hw
  have hcw := isIdentStart_isWord c hc
  obtain ⟨h1, h2, h3⟩ := before_macro_none c (t ++ ws ++ "(".toList ++ rest) hc
  have hrest : ∀ x u, ws ++ '(' :: rest = x :: u → isWord x = false := by
    intro x u h
    cases ws with
    | nil => cases h; decide
    | cons y ws =>
      cases h
      have := hws x (List.mem_cons_self _ _)
      cases hx : isWord x with
      | false => rfl
      | true => rw [isWord_not_space x hx] at this; cases this
  have h4 : anchored macro_regex (c :: t ++ ws ++ "(".toList ++ rest) = none := by
    apply anchored_none_of_run
    have := macro_run (fun _ x => some x) false c t (ws ++ '(' :: rest) hc ht hrest
    simp only [List.cons_append, List.append_assoc]
    rw [show "(".toList ++ rest = '(' :: rest from rfl, this]
    cases ws with
    | nil => simp [run_lit_cons]
    | cons y ws =>
      have hy : y ≠ '!' := by
        rintro rfl
        have := hws _ (List.mem_cons_self _ _)
        revert this; decide
      simp [run_lit_cons, hy]
  have h5 : anchored operator_regex (c :: t ++ ws ++ "(".toList ++ rest) = none :=
    operator_none_word c _ hcw
  have h6 : anchored function_regex (c :: t ++ ws ++ "(".toList ++ rest) =
      some (c :: t ++ ws ++ "(".toList).length := by
    apply anchored_of_run
    have := function_run (fun _ x => some x) c t (ws ++ '(' :: rest) hc ht hrest
    simp only [List.cons_append, List.append_assoc]
    rw [show "(".toList ++ rest = '(' :: rest from rfl, this,
      spaces_then_paren _ _ ws ('(' :: rest) hws (fun x u h => by cases h; decide)]
    simp [run_lit_cons]
  have hstep := scanStep_function (c :: t ++ ws ++ "(".toList ++ rest) _ h1 h2 h3 h4 h5 h6
  rw [List.take_left] at hstep
  have hno : '(' ∉ c :: t ++ ws := by
    intro hm
    simp only [List.cons_append, List.mem_cons, List.mem_append] at hm
    rcases hm with rfl | hm | hm
    · revert hcw; decide
    · have := ht _ hm; revert this; decide
    · have := hws _ hm; revert this; decide
  have hfind : find (c :: t ++ ws ++ "(".toList) '(' 0 = (c :: t ++ ws).length := by
    simp only [find, List.drop_zero]
    rw [show "(".toList = '(' :: [] from rfl, findFrom_append _ _ _ hno]
    omega
  rw [hfind] at hstep
  have hsub : substr (c :: t ++ ws ++ "(".toList) 0 (c :: t ++ ws).length = c :: t ++ ws := by
    simp only [substr, List.drop_zero, List.take_left]
  rw [hsub] at hstep
  exact tokenize_of_step _ rest _ (by simp) hstep

/-- C5: an identifier (a reserved word or a type name as well) directly
followed by `(` gives a Function token with the identifier as lexeme and a
Delimiter token `(`; the text after the `(` is tokenized as if it were scanned
on its own. -/
theorem tokenize_function (w rest : List Char) (hw : isIdentifier w = true) :
    tokenize (w ++ "(".toList ++ rest) =
      ⟨w, .Function⟩ :: ⟨"(".toList, .Delimiter⟩ :: tokenize rest := by
  have := function_tokens w [] rest hw (by simp)
  simpa only [List.append_nil] using this

theorem tokenize_function_witness :
    isIdentifier "foo".toList = true ∧
      tokenize "foo(".toList = [⟨"foo".toList, .Function⟩, ⟨"(".toList, .Delimiter⟩] ∧
      isIdentifier "if".toList = true ∧
      tokenize "if(".toList = [⟨"if".toList, .Function⟩, ⟨"(".toList, .Delimiter⟩] ∧
      isIdentifier "i32".toList = true ∧
      tokenize "i32(x".toList =
        ⟨"i32".toList, .Function⟩ :: ⟨"(".toList, .Delimiter⟩ :: tokenize "x".toList :=
  ⟨by decide, tokenize_function "foo".toList [] (by decide),
   by decide, tokenize_function "if".toList [] (by decide),
   by decide, tokenize_function "i32".toList "x".toList (by decide)⟩

/-- C6, as the code has it: for an identifier `w` and a run `ws` of spaces,
tabs and newlines (empty or not), `tokenize (w ++ ws ++ "(")` is a Function
token whose lexeme is `w ++ ws` (the `(` is cut off, the whitespace is kept)
and a Delimiter token `(`. -/
theorem function_lexeme_keeps_whitespace (w ws : List Char) (hw : isIdentifier w = true)
    (hws : ws.all isBlank = true) :
    tokenize (w ++ ws ++ "(".toList) = [⟨w ++ ws, .Function⟩, ⟨"(".toList, .Delimiter⟩] := by
  have := function_tokens w ws [] hw
    (fun x hx => isBlank_isSpace x (List.all_eq_true.1 hws x hx))
  simpa only [List.append_nil, tokenize_nil] using this

theorem function_lexeme_keeps_whitespace_witness :
    isIdentifier "foo".toList = true ∧ " \t\n".toList.all isBlank = true ∧
      tokenize "foo \t\n(".toList = [⟨"foo \t\n".toList, .Function⟩, ⟨"(".toList, .Delimiter⟩] :=
  ⟨by decide, by decide,
    function_lexeme_keeps_whitespace "foo".toList " \t\n".toList (by decide) (by decide)⟩

/-- C6 as stated fails: for the identifier `f` and one space, the Function
lexeme is `f` with the space, not `f`. -/
theorem function_lexeme_not_identifier :
    isIdentifier "f".toList = true ∧ " ".toList ≠ [] ∧ " ".toList.all isBlank = true ∧
      tokenize ("f".toList ++ " ".toList ++ "(".toList) =
        [⟨"f ".toList, .Function⟩, ⟨"(".toList, .Delimiter⟩] ∧
      tokenize ("f".toList ++ " ".toList ++ "(".toList) ≠
        [⟨"f".toList, .Function⟩, ⟨"(".toList, .Delimiter⟩] := by
  decide

/-! ## C10: identifiers -/

theorem accepts_word_chars (cs w : List Char)
    (h : (cs.foldr (fun c r => seq (lit c) r) eps).Accepts w) : w = cs := by
  induction cs generalizing w with
  | nil => exact h
  | cons c cs ih =>
    obtain ⟨u, v, rfl, hu, hv⟩ := h
    simp only [Regex.Accepts] at hu
    subst hu
    rw [ih v hv]
    rfl

theorem accepts_anyOf_words (kws : List String) (w : List Char)
    (h : (anyOf (kws.map word)).Accepts w) : w ∈ kws.map String.toList := by
  induction kws with
  | nil =>
    obtain ⟨x, -, hx⟩ := h
    simp [inClass] at hx
  | cons a kws ih =>
    cases kws with
    | nil =>
      have := accepts_word_chars a.toList w h
      simp [this]
    | cons b kws =>
      rcases h with h | h
      · have := accepts_word_chars a.toList w h
        simp [this]
      · exact List.mem_cons_of_mem _ (ih h)

/-- A pattern `\b(k1|k2|...)\b` matches at the start of a text of word
characters only when the text is one of the alternatives. -/
theorem keyword_none (kws : List String) (hk : [] ∉ kws.map String.toList) (w : List Char)
    (hw : ∀ x ∈ w, isWord x = true) (hn : w ∉ kws.map String.toList) :
    anchored (cat [wordb, anyOf (kws.map word), wordb]) w = none := by
  apply anchored_none_of_run
  cases hrun : (cat [wordb, anyOf (kws.map word), wordb]).run false w (fun _ x => some x) with
  | none => rfl
  | some out =>
    exfalso
    simp only [Regex.cat, run_seq, run_wordb] at hrun
    split at hrun
    · obtain ⟨a, s', hs, ha, hk2⟩ := run_sound _ _ _ _ _ hrun
      have hmem := accepts_anyOf_words kws a ha
      split at hk2
      · next hb =>
        cases a with
        | nil => exact hk hmem
        | cons c t =>
          have hc : isWord c = true := hw c (by simp [hs])
          have ht : ∀ x ∈ t, isWord x = true := fun x hx => hw x (by simp [hs, hx])
          have hl : leftAfter false (c :: t) = true := by
            show leftAfter (isWord c) t = true
            rw [hc]; exact leftAfter_word t ht
          rw [hl] at hb
          cases s' with
          | nil => rw [List.append_nil] at hs; exact hn (hs ▸ hmem)
          | cons y u =>
            have hy : isWord y = true := hw y (by simp [hs])
            simp [nextIsWord, hy] at hb
      · cases hk2
    · cases hrun

theorem library_none_word (w : List Char) (hw : ∀ x ∈ w, isWord x = true) :
    anchored library_regex w = none := by
  cases h : anchored library_regex w with
  | none => rfl
  | some n =>
    exfalso
    obtain ⟨a, s', hs, ha, -⟩ := anchored_sound _ _ _ h
    simp only [library_regex, Regex.cat, Regex.plus, Regex.Accepts] at ha
    obtain ⟨u0, v0, rfl, rfl, u1, v1, rfl, rfl, u2, v2, rfl, rfl, u3, v3, rfl,
      ⟨u4, v4, rfl, ⟨x, rfl, hx⟩, -⟩, -⟩ := ha
    have := hw x (by simp [hs])
    rw [space_class] at hx
    rw [isWord_not_space x this] at hx
    cases hx

theorem scanStep_identifier (s : List Char) (n : Nat)
    (h1 : anchored comment_regex s = none) (h2 : anchored string_literal_regex s = none)
    (h3 : anchored number_regex s = none) (h4 : anchored macro_regex s = none)
    (h5 : anchored operator_regex s = none) (h6 : anchored function_regex s = none)
    (h7 : anchored reserved_word_regex s = none) (h8 : anchored library_regex s = none)
    (h9 : anchored type_regex s = none) (h10 : anchored delimiter_regex s = none)
    (h11 : anchored identifier_regex s = some n) :
    scanStep s = ([⟨s.take n, .Identifier⟩], n) := by
  simp only [scanStep, h1, h2, h3, h4, h5, h6, h7, h8, h9, h10, h11]

theorem delimiter_none_word (c : Char) (u : List Char) (hc : isWord c = true) :
    anchored delimiter_regex (c :: u) = none :=
  delimiter_none c u (not_in_chars _ (by decide) c hc)

/-- C10: an identifier that is none of the 30 reserved words and none of the
type names `i32`, `u32`, `i64`, `u64`, `f32`, `f64`, `String`, `bool`, `char`
is, alone, one Identifier token. -/
theorem tokenize_identifier (w : List Char) (hw : isIdentifier w = true)
    (hr : w ∉ ["fn", "let", "if", "else", "while", "for", "return", "match", "impl", "trait",
      "as", "in", "async", "await", "dyn", "struct", "enum", "const", "static", "type",
      "unsafe", "mod", "pub", "self", "crate", "super", "mut", "continue", "break",
      "loop"].map String.toList)
    (ht : w ∉ ["i32", "u32", "i64", "u64", "f32", "f64", "String", "bool", "char"].map
      String.toList) :
    tokenize w = [⟨w, .Identifier⟩] := by
  obtain ⟨c, t, rfl, hc, htl⟩ := isIdentifier_cases w hw
  have hcw := isIdentStart_isWord c hc
  have hall : ∀ x ∈ c :: t, isWord x = true := by
    intro x hx
    rcases List.mem_cons.1 hx with rfl | hx
    · exact hcw
    · exact htl x hx
  have hnil : ∀ x u, ([] : List Char) = x :: u → isWord x = false := fun x u h => by cases h
  obtain ⟨h1, h2, h3⟩ := before_macro_none c t hc
  have h4 : anchored macro_regex (c :: t) = none := by
    apply anchored_none_of_run
    have := macro_run (fun _ x => some x) false c t [] hc htl hnil
    rw [List.append_nil] at this
    rw [this]; rfl
  have h5 := operator_none_word c t hcw
  have h6 : anchored function_regex (c :: t) = none := by
    apply anchored_none_of_run
    have := function_run (fun _ x => some x) c t [] hc htl hnil
    rw [List.append_nil] at this
    rw [this]; rfl
  have h7 : anchored reserved_word_regex (c :: t) = none :=
    keyword_none reservedWords (by decide) (c :: t) hall hr
  have h8 := library_none_word (c :: t) hall
  have h9 : anchored type_regex (c :: t) = none := by
    refine keyword_none typeNames (by decide) (c :: t) hall ?_
    intro hm
    simp only [typeNames, List.map_cons, List.mem_cons] at hm ht
    rcases hm with h | h | h | h | h | h | h | h | h | h
    · exact ht (by simp [h])
    · exact ht (by simp [h])
    · exact ht (by simp [h])
    · exact ht (by simp [h])
    · exact ht (by simp [h])
    · exact ht (by simp [h])
    · exact ht (by simp [h])
    · have hcc : c = '&' := (List.cons.inj h).1
      subst hcc
      revert hc; decide
    · exact ht (by simp [h])
    · rcases h with h | h
      · exact ht (by simp [h])
      · simp at h
  have h10 := delimiter_none_word c t hcw
  have h11 : anchored identifier_regex (c :: t ++ []) = some (c :: t).length := by
    apply anchored_of_run
    have := identifier_run (fun _ x => some x) c t [] hc htl hnil
    rw [List.cons_append, this]
  rw [List.append_nil] at h11
  have hstep := scanStep_identifier (c :: t) _ h1 h2 h3 h4 h5 h6 h7 h8 h9 h10 h11
  rw [List.take_length] at hstep
  have := tokenize_of_step (c :: t) [] _ (by simp) (by rw [List.append_nil]; exact hstep)
  simpa only [List.append_nil, tokenize_nil] using this

/-! ## C7 to C9: library imports and reserved words -/

theorem starLoop_stop (body : Bool → List Char → Cont → Option (List Char)) (l : Bool)
    (s : List Char) (k : Cont) (h : ∀ k', body l s k' = none) (n : Nat) :
    starLoop body n l s k = k l s := by
  cases n with
  | zero => rfl
  | succ n => simp only [starLoop, h]

theorem pathGroup_stop (l : Bool) (s : List Char) (hs : ∀ u, s ≠ ':' :: u) (k : Cont) :
    pathGroup.run l s k = none := by
  cases s with
  | nil => rfl
  | cons x u =>
    have : x ≠ ':' := fun h => hs u (by rw [h])
    simp only [pathGroup, Regex.cat, run_seq, run_lit_cons, if_neg this]

/-- The identifier part of a path segment, when the rest of the pattern
succeeds after it. -/
theorem ident_some (k : Cont) (l : Bool) (c : Char) (t rest out : List Char)
    (hc : isIdentStart c = true) (ht : ∀ x ∈ t, isWord x = true)
    (hrest : ∀ x u, rest = x :: u → isWord x = false) (hk : k true rest = some out) :
    (seq identStart (star identChar)).run l (c :: (t ++ rest)) k = some out := by
  rw [run_seq, run_identStart_cons, if_pos hc]
  show (star identChar).run (isWord c) (t ++ rest) k = _
  rw [run_star]
  apply starLoop_run_some identChar.run isWord oneChar_identChar k rest out hrest t ht
  · rw [isIdentStart_isWord c hc, leftAfter_word t ht]; exact hk
  · exact Nat.le_refl _

theorem pathGroup_some (k : Cont) (l : Bool) (c : Char) (t rest out : List Char)
    (hc : isIdentStart c = true) (ht : ∀ x ∈ t, isWord x = true)
    (hrest : ∀ x u, rest = x :: u → isWord x = false) (hk : k true rest = some out) :
    pathGroup.run l (':' :: ':' :: c :: (t ++ rest)) k = some out := by
  simp only [pathGroup, Regex.cat]
  rw [run_seq, run_lit_cons, if_pos rfl, run_seq, run_lit_cons, if_pos rfl]
  exact ident_some k _ c t rest out hc ht hrest hk

/-- The repeated group of `library_regex` over the segments `::g` of a path,
when the rest of the pattern succeeds after the path. -/
theorem pathGroups_some (k : Cont) (tail out : List Char) (htail : ∀ u, tail ≠ ':' :: u)
    (htw : ∀ x u, tail = x :: u → isWord x = false) (hk : ∀ l, k l tail = some out) :
    ∀ (gs : List (List Char)), (∀ g ∈ gs, isIdentifier g = true) → ∀ (l : Bool) (n : Nat),
      ((gs.map (fun x => "::".toList ++ x)).flatten ++ tail).length ≤ n →
      starLoop pathGroup.run n l ((gs.map (fun x => "::".toList ++ x)).flatten ++ tail) k =
        some out := by
  intro gs
  induction gs with
  | nil =>
    intro _ l n _
    simp only [List.map_nil, List.flatten_nil, List.nil_append]
    rw [starLoop_stop _ _ _ _ (fun k' => pathGroup_stop l tail htail k')]
    exact hk l
  | cons g gs ih =>
    intro hgs l n hn
    obtain ⟨c, t, rfl, hc, ht⟩ := isIdentifier_cases g (hgs g (List.mem_cons_self _ _))
    have hgs' : ∀ g ∈ gs, isIdentifier g = true := fun g hg => hgs g (List.mem_cons_of_mem _ hg)
    have hshape : ((c :: t) :: gs).map (fun x => "::".toList ++ x) =
        (':' :: ':' :: c :: t) :: gs.map (fun x => "::".toList ++ x) := rfl
    rw [hshape, List.flatten_cons] at hn ⊢
    cases n with
    | zero => simp at hn
    | succ n =>
      simp only [List.cons_append, List.length_cons] at hn
      have hrest : ∀ x u, (gs.map (fun x => "::".toList ++ x)).flatten ++ tail = x :: u →
          isWord x = false := by
        intro x u h
        cases gs with
        | nil => exact htw x u h
        | cons g' gs' => cases h; decide
      simp only [starLoop, List.cons_append, List.append_assoc]
      rw [pathGroup_some _ _ c t _ out hc ht hrest]
      rw [if_pos (by simp only [List.length_cons, List.length_append]; omega)]
      exact ih hgs' _ n (by simp only [List.length_append] at hn ⊢; omega)

theorem pathOf_shape (g : List Char) (gs : List (List Char)) (hg : isIdentifier g = true)
    (hgs : ∀ x ∈ gs, isIdentifier x = true) :
    ∃ c t, isIdentStart c = true ∧ pathOf g gs = c :: t ∧
      ∀ x ∈ t, isWord x = true ∨ x = ':' := by
  obtain ⟨c, t, rfl, hc, ht⟩ := isIdentifier_cases g hg
  refine ⟨c, t ++ (gs.map (fun x => "::".toList ++ x)).flatten, hc, rfl, ?_⟩
  intro x hx
  rcases List.mem_append.1 hx with hx | hx
  · exact Or.inl (ht x hx)
  · obtain ⟨u, hu, hxu⟩ := List.mem_flatten.1 hx
    obtain ⟨g', hg', rfl⟩ := List.mem_map.1 hu
    obtain ⟨c', t', rfl, hc', ht'⟩ := isIdentifier_cases g' (hgs g' hg')
    simp only [show "::".toList = [':', ':'] from rfl, List.cons_append, List.nil_append,
      List.mem_cons] at hxu
    rcases hxu with rfl | rfl | rfl | hxu
    · exact Or.inr rfl
    · exact Or.inr rfl
    · exact Or.inl (isIdentStart_isWord _ hc')
    · exact Or.inl (ht' x hxu)

/-- The match of `library_regex` on `use`, one space, a path and `;`. -/
theorem library_run (g : List Char) (gs : List (List Char)) (rest : List Char)
    (hg : isIdentifier g = true) (hgs : ∀ x ∈ gs, isIdentifier x = true) :
    anchored library_regex ("use ".toList ++ pathOf g gs ++ ";".toList ++ rest) =
      some ("use ".toList ++ pathOf g gs ++ ";".toList).length := by
  apply anchored_of_run
  obtain ⟨c, t, rfl, hc, ht⟩ := isIdentifier_cases g hg
  have htail : ∀ u, ';' :: rest ≠ ':' :: u := fun u h => by cases h
  have htw : ∀ x u, ';' :: rest = x :: u → isWord x = false := fun x u h => by cases h; decide
  have hspace0 : ∀ l, (seq (star (cls false [.space])) (lit ';')).run l (';' :: rest)
      (fun _ x => some x) = some rest := by
    intro l
    rw [run_seq, run_star, starLoop_stop _ _ _ _ (fun k' => by rw [run_cls_cons, if_neg (by decide)])]
    rfl
  have hgroups := pathGroups_some
    (fun l s => (seq (star (cls false [.space])) (lit ';')).run l s (fun _ x => some x))
    (';' :: rest) rest htail htw hspace0 gs hgs true _ (Nat.le_refl _)
  have hrest : ∀ x u, (gs.map (fun x => "::".toList ++ x)).flatten ++ ';' :: rest = x :: u →
      isWord x = false := by
    intro x u h
    cases gs with
    | nil => exact htw x u h
    | cons g' gs' => cases h; decide
  have hident := ident_some
    (fun l s => (seq (star pathGroup) (seq (star (cls false [.space])) (lit ';'))).run l s
      (fun _ x => some x)) false c t
    ((gs.map (fun x => "::".toList ++ x)).flatten ++ ';' :: rest) rest hc ht hrest
    (by
      show (seq (star pathGroup) (seq (star (cls false [.space])) (lit ';'))).run true _ _ = _
      rw [run_seq, run_star]; exact hgroups)
  have htext : "use ".toList ++ pathOf (c :: t) gs ++ ";".toList ++ rest =
      'u' :: 's' :: 'e' :: ' ' ::
        (c :: (t ++ ((gs.map (fun x => "::".toList ++ x)).flatten ++ ';' :: rest))) := by
    simp [pathOf]
  rw [htext]
  simp only [library_regex, Regex.cat, Regex.plus, run_seq, run_lit_cons, run_cls_cons, if_true]
  rw [if_pos (by decide)]
  rw [run_star, starLoop_stop _ _ _ _ (fun k' => by
    rw [run_cls_cons, if_neg (by
      rw [space_class, isWord_not_space c (isIdentStart_isWord c hc)]; decide)])]
  simp only [run_seq, pathGroup, Regex.cat] at hident
  exact hident

theorem scanStep_library (s : List Char) (n : Nat)
    (h1 : anchored comment_regex s = none) (h2 : anchored string_literal_regex s = none)
    (h3 : anchored number_regex s = none) (h4 : anchored macro_regex s = none)
    (h5 : anchored operator_regex s = none) (h6 : anchored function_regex s = none)
    (h7 : anchored reserved_word_regex s = none) (h8 : anchored library_regex s = some n) :
    scanStep s = ([⟨"use".toList, .ReservedWord⟩,
      ⟨substr (s.take n) ((find (s.take n) ' ' 0 + 1) % 2 ^ 64)
        (find (s.take n) ';' ((find (s.take n) ' ' 0 + 1) % 2 ^ 64) -
          (find (s.take n) ' ' 0 + 1) % 2 ^ 64), .Identifier⟩], n) := by
  simp only [scanStep, h1, h2, h3, h4, h5, h6, h7, h8]

/-- No reserved word is at the start of a text that begins with `use`. -/
theorem reserved_none_use (u : List Char) :
    anchored reserved_word_regex ('u' :: 's' :: 'e' :: u) = none := by
  apply anchored_none_of_run
  cases hrun : reserved_word_regex.run false ('u' :: 's' :: 'e' :: u) (fun _ x => some x) with
  | none => rfl
  | some out =>
    exfalso
    simp only [reserved_word_regex, Regex.cat, run_seq, run_wordb] at hrun
    split at hrun
    · obtain ⟨a, s', hs, ha, hk2⟩ := run_sound _ _ _ _ _ hrun
      have hmem := accepts_anyOf_words reservedWords a ha
      simp only [reservedWords, List.map_cons, List.map_nil, List.mem_cons, List.mem_singleton,
        List.not_mem_nil, or_false] at hmem
      rcases hmem with h | h | h | h | h | h | h | h | h | h | h | h | h | h | h | h | h | h | h |
        h | h | h | h | h | h | h | h | h | h | h <;> subst h <;>
        simp [String.toList] at hs
    · cases hrun

/-- The tokens of `use`, one space, a path, `;`: the reserved word `use` and
the path; no token for the `;`. -/
theorem library_tokens (g : List Char) (gs : List (List Char)) (rest : List Char)
    (hg : isIdentifier g = true) (hgs : ∀ x ∈ gs, isIdentifier x = true) :
    tokenize ("use ".toList ++ pathOf g gs ++ ";".toList ++ rest) =
      ⟨"use".toList, .ReservedWord⟩ :: ⟨pathOf g gs, .Identifier⟩ :: tokenize rest := by
  obtain ⟨c, t, hc, hp, ht⟩ := pathOf_shape g gs hg hgs
  have huse : "use ".toList = 'u' :: 's' :: 'e' :: ' ' :: [] := rfl
  have hsemi : ";".toList = ';' :: [] := rfl
  have hu : isIdentStart 'u' = true := by decide
  have hse : ∀ x ∈ ['s', 'e'], isWord x = true := by decide
  have hsp : ∀ x u, ' ' :: (pathOf g gs ++ ";".toList ++ rest) = x :: u → isWord x = false :=
    fun x u h => by cases h; decide
  have htext : "use ".toList ++ pathOf g gs ++ ";".toList ++ rest =
      'u' :: (['s', 'e'] ++ ' ' :: (pathOf g gs ++ ";".toList ++ rest)) := by
    simp [huse]
  obtain ⟨h1, h2, h3⟩ := before_macro_none 'u'
    (['s', 'e'] ++ ' ' :: (pathOf g gs ++ ";".toList ++ rest)) hu
  have h4 : anchored macro_regex
      ('u' :: (['s', 'e'] ++ ' ' :: (pathOf g gs ++ ";".toList ++ rest))) = none := by
    apply anchored_none_of_run
    rw [macro_run _ _ _ _ _ hu hse hsp, run_lit_cons, if_neg (by decide)]
  have h5 := operator_none_word 'u'
    (['s', 'e'] ++ ' ' :: (pathOf g gs ++ ";".toList ++ rest)) (by decide)
  have h6 : anchored function_regex
      ('u' :: (['s', 'e'] ++ ' ' :: (pathOf g gs ++ ";".toList ++ rest))) = none := by
    apply anchored_none_of_run
    rw [function_run _ _ _ _ hu hse hsp]
    have := spaces_then_paren (fun _ x => some x) true [' ']
      (pathOf g gs ++ ";".toList ++ rest) (by decide)
      (fun x u h => by
        rw [hp] at h
        cases h
        exact isWord_not_space _ (isIdentStart_isWord _ hc))
    rw [show ' ' :: (pathOf g gs ++ ";".toList ++ rest) =
      [' '] ++ (pathOf g gs ++ ";".toList ++ rest) from rfl, this, hp]
    have hc' : c ≠ '(' := isWord_ne c '(' (isIdentStart_isWord _ hc) (by decide)
    simp only [List.cons_append, run_lit_cons, if_neg hc']
  have h7 := reserved_none_use (' ' :: (pathOf g gs ++ ";".toList ++ rest))
  have h8 := library_run g gs rest hg hgs
  rw [htext] at h8
  have hstep := scanStep_library _ _ h1 h2 h3 h4 h5 h6 h7 h8
  rw [← htext, List.take_left] at hstep
  have hf1 : find ("use ".toList ++ pathOf g gs ++ ";".toList) ' ' 0 = 3 := by
    simp [huse, find, findFrom]
  have hno : ';' ∉ pathOf g gs := by
    rw [hp]
    intro hm
    rcases List.mem_cons.1 hm with h | h
    · subst h; revert hc; decide
    · rcases ht _ h with h' | h'
      · revert h'; decide
      · cases h'
  have hf2 : find ("use ".toList ++ pathOf g gs ++ ";".toList) ';' 4 =
      4 + (pathOf g gs).length := by
    simp only [find, huse, hsemi, List.cons_append, List.nil_append, List.drop_succ_cons,
      List.drop_zero]
    exact findFrom_append _ _ _ hno 4
  rw [hf1] at hstep
  rw [show (3 + 1) % 2 ^ 64 = 4 from rfl, hf2] at hstep
  have hsub : substr ("use ".toList ++ pathOf g gs ++ ";".toList) 4
      (4 + (pathOf g gs).length - 4) = pathOf g gs := by
    simp [substr, huse]
  rw [hsub] at hstep
  exact tokenize_of_step _ rest _ (by simp [huse]) hstep

/-- C7: `use`, exactly one space, a path of identifiers separated by `::`, and
`;` directly after it give the ReservedWord token `use` and one Identifier
token whose lexeme is the path; the `;` is consumed without a token. -/
theorem tokenize_use (g : List Char) (gs : List (List Char)) (hg : isIdentifier g = true)
    (hgs : ∀ x ∈ gs, isIdentifier x = true) :
    tokenize ("use ".toList ++ pathOf g gs ++ ";".toList) =
      [⟨"use".toList, .ReservedWord⟩, ⟨pathOf g gs, .Identifier⟩] := by
  have := library_tokens g gs [] hg hgs
  simpa only [List.append_nil, tokenize_nil] using this

theorem tokenize_use_witness :
    isIdentifier "std".toList = true ∧ (∀ x ∈ ["io".toList], isIdentifier x = true) ∧
      pathOf "std".toList ["io".toList] = "std::io".toList ∧
      tokenize "use std::io;".toList =
        [⟨"use".toList, .ReservedWord⟩, ⟨"std::io".toList, .Identifier⟩] :=
  ⟨by decide, by decide, by decide, tokenize_use "std".toList ["io".toList] (by decide) (by decide)⟩

/-- C8 fails on the code: the Identifier lexeme is cut from the character after
the first space (from the start of the match when it has no space) up to the
next `;`. A tab after `use` leaves `use` and the tab in the lexeme, two spaces
leave a space in front of the path, whitespace before `;` stays behind it, and a
tab after `use` with a space before `;` gives the empty lexeme. -/
theorem tokenize_use_whitespace_fails :
    tokenize "use\tstd;".toList =
        [⟨"use".toList, .ReservedWord⟩, ⟨"use\tstd".toList, .Identifier⟩] ∧
      tokenize "use  std;".toList =
        [⟨"use".toList, .ReservedWord⟩, ⟨" std".toList, .Identifier⟩] ∧
      tokenize "use std ;".toList =
        [⟨"use".toList, .ReservedWord⟩, ⟨"std ".toList, .Identifier⟩] ∧
      tokenize "use\tstd ;".toList =
        [⟨"use".toList, .ReservedWord⟩, ⟨[], .Identifier⟩] := by
  decide

/-- C9: each of the 30 reserved words, alone, is one ReservedWord token whose
lexeme is the word. -/
theorem tokenize_reserved_word :
    reservedWords = ["fn", "let", "if", "else", "while", "for", "return", "match", "impl",
      "trait", "as", "in", "async", "await", "dyn", "struct", "enum", "const", "static", "type",
      "unsafe", "mod", "pub", "self", "crate", "super", "mut", "continue", "break", "loop"] ∧
    reservedWords.length = 30 ∧
    ∀ kw ∈ reservedWords, tokenize kw.toList = [⟨kw.toList, .ReservedWord⟩] := by
  refine ⟨rfl, rfl, ?_⟩
  decide

theorem tokenize_identifier_witness :
    isIdentifier "lettuce".toList = true ∧
      tokenize "lettuce".toList = [⟨"lettuce".toList, .Identifier⟩] ∧
      tokenize "format".toList = [⟨"format".toList, .Identifier⟩] ∧
      tokenize "index".toList = [⟨"index".toList, .Identifier⟩] ∧
      tokenize "use".toList = [⟨"use".toList, .Identifier⟩] :=
  ⟨by decide, tokenize_identifier _ (by decide) (by decide) (by decide),
    tokenize_identifier _ (by decide) (by decide) (by decide),
    tokenize_identifier _ (by decide) (by decide) (by decide),
    tokenize_identifier _ (by decide) (by decide) (by decide)⟩

/-! ## C14: the fallback -/

theorem run_alt_none (a b : Regex) (l : Bool) (s : List Char) (k : Cont)
    (ha : a.run l s k = none) : (alt a b).run l s k = b.run l s k := by
  simp only [Regex.run, ha]

theorem run_alt_some (a b : Regex) (l : Bool) (s : List Char) (k : Cont) (out : List Char)
    (ha : a.run l s k = some out) : (alt a b).run l s k = some out := by
  simp only [Regex.run, ha]

theorem run_eps (l : Bool) (s : List Char) (k : Cont) : eps.run l s k = k l s := rfl

theorem macro_none (c : Char) (u : List Char) (hc : isIdentStart c = false) :
    anchored macro_regex (c :: u) = none := by
  apply anchored_none_of_run
  simp only [macro_regex, Regex.cat]
  rw [run_seq, run_identStart_cons, hc]
  rfl

theorem function_none (c : Char) (u : List Char) (hc : isIdentStart c = false) :
    anchored function_regex (c :: u) = none := by
  apply anchored_none_of_run
  simp only [function_regex, Regex.cat]
  rw [run_seq, run_wordb]
  split
  · rw [run_seq, run_identStart_cons, hc]; rfl
  · rfl

theorem identifier_none (c : Char) (u : List Char) (hc : isIdentStart c = false) :
    anchored identifier_regex (c :: u) = none := by
  apply anchored_none_of_run
  simp only [identifier_regex, Regex.cat]
  rw [run_seq, run_wordb]
  split
  · rw [run_seq, run_identStart_cons, hc]; rfl
  · rfl

theorem library_none (c : Char) (u : List Char) (hc : c ≠ 'u') :
    anchored library_regex (c :: u) = none := by
  apply anchored_none_of_run
  simp only [library_regex, Regex.cat]
  rw [run_seq, run_lit_cons, if_neg hc]

/-- A pattern `\b(k1|k2|...)\b` does not match at a character that starts none
of the alternatives. -/
theorem keyword_none_head (kws : List String) (c : Char) (u : List Char)
    (hk : ∀ kw ∈ kws, kw.toList.head? ≠ some c) (hne : [] ∉ kws.map String.toList) :
    anchored (cat [wordb, anyOf (kws.map word), wordb]) (c :: u) = none := by
  apply anchored_none_of_run
  cases hrun : (cat [wordb, anyOf (kws.map word), wordb]).run false (c :: u)
      (fun _ x => some x) with
  | none => rfl
  | some out =>
    exfalso
    simp only [Regex.cat, run_seq, run_wordb] at hrun
    split at hrun
    · obtain ⟨a, s', hs, ha, -⟩ := run_sound _ _ _ _ _ hrun
      have hmem := accepts_anyOf_words kws a ha
      obtain ⟨kw, hkw, rfl⟩ := List.mem_map.1 hmem
      cases hl : kw.toList with
      | nil => exact hne (hl ▸ hmem)
      | cons x t =>
        rw [hl] at hs
        cases hs
        exact hk kw hkw (by rw [hl]; rfl)
    · cases hrun

theorem not_mem_chars (s : String) (c : Char) (h : c ∉ s.toList) :
    inClass false (chars s) c = false := by
  cases hin : inClass false (chars s) c with
  | false => rfl
  | true =>
    simp only [inClass, Bool.false_bne, List.any_eq_true] at hin
    obtain ⟨a, ha, hac⟩ := hin
    obtain ⟨x, hx, rfl⟩ := List.mem_map.1 ha
    simp only [ClassAtom.test, beq_iff_eq] at hac
    exact absurd (hac ▸ hx) h

theorem isWord_false_parts (c : Char) (h : isWord c = false) :
    isDigit c = false ∧ isIdentStart c = false := by
  simp only [isWord, Bool.or_eq_false_iff] at h
  refine ⟨h.1.2, ?_⟩
  simp only [isIdentStart, Bool.or_eq_false_iff]
  exact ⟨h.1.1, h.2⟩

theorem scanStep_unknown (s : List Char)
    (h1 : anchored comment_regex s = none) (h2 : anchored string_literal_regex s = none)
    (h3 : anchored number_regex s = none) (h4 : anchored macro_regex s = none)
    (h5 : anchored operator_regex s = none) (h6 : anchored function_regex s = none)
    (h7 : anchored reserved_word_regex s = none) (h8 : anchored library_regex s = none)
    (h9 : anchored type_regex s = none) (h10 : anchored delimiter_regex s = none)
    (h11 : anchored identifier_regex s = none) :
    scanStep s = ([⟨s.take 1, .Unknown⟩], 1) := by
  simp only [scanStep, h1, h2, h3, h4, h5, h6, h7, h8, h9, h10, h11]

theorem tokenize_after_unknown (c : Char) (rest : List Char)
    (h : scanStep (c :: rest) = ([⟨(c :: rest).take 1, .Unknown⟩], 1)) :
    tokenize (c :: rest) = ⟨[c], .Unknown⟩ :: tokenize rest :=
  tokenize_of_step [c] rest _ (by simp) h

/-- C14: a character that is no letter, digit or underscore and none of
`" / + - * = < > ! & | % . : { } ( ) ; ,` is one Unknown token, and the text
after it is tokenized as if it were scanned on its own. -/
theorem tokenize_unknown (c : Char) (rest : List Char) (hw : isWord c = false)
    (hc : c ∉ "\"/+-*=<>!&|%.:\x7b\x7d();,".toList) :
    tokenize (c :: rest) = ⟨[c], .Unknown⟩ :: tokenize rest := by
  obtain ⟨hd, hi⟩ := isWord_false_parts c hw
  have hsub : ∀ s : String, (∀ x ∈ s.toList, x ∈ "\"/+-*=<>!&|%.:\x7b\x7d();,".toList) →
      c ∉ s.toList := fun s hs hm => hc (hs c hm)
  have h1 := comment_none c rest (fun h => hc (by rw [h]; decide))
  have h2 := string_literal_none c rest (fun h => hc (by rw [h]; decide))
  have h3 := number_none c rest hd
  have h4 := macro_none c rest hi
  have h5 := operator_none c rest (not_mem_chars _ c (hsub _ (by decide)))
  have h6 := function_none c rest hi
  have h7 : anchored reserved_word_regex (c :: rest) = none :=
    keyword_none_head reservedWords c rest
      (fun kw hkw h => by
        have : ∀ kw ∈ reservedWords, ∀ x ∈ kw.toList.head?, isWord x = true := by decide
        have := this kw hkw c (by rw [h]; rfl)
        rw [hw] at this; cases this) (by decide)
  have h8 := library_none c rest (fun h => by rw [h] at hw; revert hw; decide)
  have h9 : anchored type_regex (c :: rest) = none :=
    keyword_none_head typeNames c rest
      (fun kw hkw h => by
        have : ∀ kw ∈ typeNames, ∀ x ∈ kw.toList.head?, isWord x = true ∨ x = '&' := by decide
        rcases this kw hkw c (by rw [h]; rfl) with h' | h'
        · rw [hw] at h'; cases h'
        · exact hc (by rw [h']; decide)) (by decide)
  have h10 := delimiter_none c rest (not_mem_chars _ c (hsub _ (by decide)))
  have h11 := identifier_none c rest hi
  exact tokenize_after_unknown c rest
    (scanStep_unknown _ h1 h2 h3 h4 h5 h6 h7 h8 h9 h10 h11)

theorem tokenize_unknown_witness :
    isWord '@' = false ∧ '@' ∉ "\"/+-*=<>!&|%.:\x7b\x7d();,".toList ∧
      tokenize "@".toList = [⟨"@".toList, .Unknown⟩] ∧
      tokenize "# x".toList = ⟨"#".toList, .Unknown⟩ :: tokenize " x".toList ∧
      tokenize "\n\t".toList = ⟨"\n".toList, .Unknown⟩ :: tokenize "\t".toList :=
  ⟨by decide, by decide, tokenize_unknown '@' [] (by decide) (by decide),
    tokenize_unknown '#' " x".toList (by decide) (by decide),
    tokenize_unknown '\n' "\t".toList (by decide) (by decide)⟩

/-! ## Numbers: the two branches of `number_regex` -/

theorem number_regex_eq : number_regex = alt hexNumber decimalNumber := rfl

theorem hexDigit_class (c : Char) :
    inClass false [.range '0' '9', .range 'a' 'f', .range 'A' 'F'] c = isHexDigit c := by
  simp [inClass, ClassAtom.test, isHexDigit, isDigit, Bool.or_assoc]

theorem oneChar_digit : OneChar (Regex.cls false [.digit]).run isDigit := by
  refine ⟨fun _ _ => rfl, fun l c t k => ?_⟩
  simp only [Regex.run, digit_class]

theorem oneChar_hexDigit : OneChar hexDigit.run isHexDigit := by
  refine ⟨fun _ _ => rfl, fun l c t k => ?_⟩
  simp only [hexDigit, Regex.run, hexDigit_class]

theorem isDigit_isWord (c : Char) (h : isDigit c = true) : isWord c = true := by
  simp [isWord, h]

theorem isDigit_not_identStart (c : Char) (h : isDigit c = true) : isIdentStart c = false := by
  cases hi : isIdentStart c with
  | false => rfl
  | true => rw [isIdentStart_not_digit c hi] at h; cases h

theorem isHexDigit_isWord (c : Char) (h : isHexDigit c = true) : isWord c = true := by
  simp only [isHexDigit, char_le_iff, Bool.or_eq_true, Bool.and_eq_true,
    decide_eq_true_eq] at h
  simp only [isWord, isLetter, char_le_iff, Bool.or_eq_true, Bool.and_eq_true,
    decide_eq_true_eq]
  have h2 : ('a' : Char).toNat = 97 := rfl
  have h3 : ('z' : Char).toNat = 122 := rfl
  have h4 : ('A' : Char).toNat = 65 := rfl
  have h5 : ('Z' : Char).toNat = 90 := rfl
  have h6 : ('f' : Char).toNat = 102 := rfl
  have h7 : ('F' : Char).toNat = 70 := rfl
  rcases h with (h | h) | h
  · exact Or.inl (Or.inr h)
  · exact Or.inl (Or.inl (Or.inl (by omega)))
  · exact Or.inl (Or.inl (Or.inr (by omega)))

theorem isDigits_cases (d : List Char) (h : isDigits d = true) :
    ∃ c t, d = c :: t ∧ isDigit c = true ∧ ∀ x ∈ t, isDigit x = true := by
  cases d with
  | nil => cases h
  | cons c t =>
    simp only [isDigits, List.isEmpty_cons, Bool.not_false, Bool.true_and, List.all_cons,
      Bool.and_eq_true, List.all_eq_true] at h
    exact ⟨c, t, rfl, h.1, h.2⟩

/-- The hexadecimal branch needs `0x` at the position. -/
theorem hexNumber_none (c : Char) (u : List Char) (k : Cont)
    (h : c ≠ '0' ∨ ∀ t, u ≠ 'x' :: t) : hexNumber.run false (c :: u) k = none := by
  simp only [hexNumber, Regex.cat]
  rw [run_seq, run_wordb]
  split
  · rw [run_seq, run_lit_cons]
    by_cases hc : c = '0'
    · rw [if_pos hc]
      cases u with
      | nil => rfl
      | cons y t =>
        rw [run_seq, run_lit_cons]
        by_cases hy : y = 'x'
        · rcases h with h | h
          · exact absurd hc h
          · exact absurd (by rw [hy]) (h t)
        · rw [if_neg hy]
    · rw [if_neg hc]
  · rfl

/-- The part `(\.\d+)?\b` cannot be matched in front of a word character that
follows a word character. -/
theorem fractionEnd_none_word (x : Char) (u : List Char) (k : Cont) (hx : isWord x = true) :
    fractionEnd.run true (x :: u) k = none := by
  have hdot : x ≠ '.' := isWord_ne x '.' hx (by decide)
  simp only [fractionEnd, Regex.opt, Regex.cat]
  rw [run_seq, run_alt_none _ _ _ _ _ (by rw [run_seq, run_lit_cons, if_neg hdot]), run_eps,
    run_wordb]
  simp [nextIsWord, hx]

/-- The decimal branch takes the whole run of digits at the position and goes
on with `(\.\d+)?\b` behind it. -/
theorem decimalNumber_run (k : Cont) (c : Char) (t rest : List Char)
    (hc : isDigit c = true) (ht : ∀ x ∈ t, isDigit x = true)
    (hrest : ∀ x u, rest = x :: u → isDigit x = false) :
    decimalNumber.run false (c :: (t ++ rest)) k = fractionEnd.run true rest k := by
  have hw := isDigit_isWord c hc
  simp only [decimalNumber, Regex.cat, Regex.plus]
  rw [run_seq, run_wordb, if_pos (by simp [nextIsWord, hw]), run_seq, run_seq, run_cls_cons,
    digit_class, if_pos hc, run_star, hw]
  have := starLoop_run (Regex.cls false [.digit]).run isDigit oneChar_digit
    (fun l' s' => fractionEnd.run l' s' k) (fun b => b = true)
    (fun x hx => isDigit_isWord x hx)
    (fun l' hl' x u hx => by subst hl'; exact fractionEnd_none_word x u k (isDigit_isWord x hx))
    rest hrest t ht true rfl (t ++ rest).length (Nat.le_refl _)
  rw [leftAfter_word t (fun x hx => isDigit_isWord x (ht x hx))] at this
  exact this

/-! ## C11 and C19: numbers, and digits glued to a word -/

theorem scanStep_number (s : List Char) (n : Nat)
    (h1 : anchored comment_regex s = none) (h2 : anchored string_literal_regex s = none)
    (h3 : anchored number_regex s = some n) :
    scanStep s = ([⟨s.take n, .Number⟩], n) := by
  simp only [scanStep, h1, h2, h3]

/-- A text that is a Number match as a whole is one Number token. -/
theorem number_token (c : Char) (t : List Char) (hw : isWord c = true)
    (h : number_regex.run false (c :: t) (fun _ x => some x) = some []) :
    tokenize (c :: t) = [⟨c :: t, .Number⟩] := by
  have h1 := comment_none c t (isWord_ne c '/' hw (by decide))
  have h2 := string_literal_none c t (isWord_ne c '\x22' hw (by decide))
  have h3 : anchored number_regex (c :: t ++ []) = some (c :: t).length :=
    anchored_of_run _ _ _ (by rw [List.append_nil]; exact h)
  rw [List.append_nil] at h3
  have hstep := scanStep_number (c :: t) _ h1 h2 h3
  rw [List.take_length] at hstep
  have := tokenize_of_step (c :: t) [] _ (by simp) (by rw [List.append_nil]; exact hstep)
  simpa only [List.append_nil, tokenize_nil] using this

theorem fractionEnd_nil : fractionEnd.run true [] (fun _ x => some x) = some [] := rfl

theorem digits_end (c : Char) (t : List Char) (hc : isDigit c = true)
    (ht : ∀ x ∈ t, isDigit x = true) (k : Cont) (out : List Char) (hk : k true [] = some out) :
    (plus (cls false [.digit])).run true (c :: t) k = some out := by
  simp only [Regex.plus]
  rw [run_seq, run_cls_cons, digit_class, if_pos hc, run_star, isDigit_isWord c hc]
  have := starLoop_run_some (Regex.cls false [.digit]).run isDigit oneChar_digit k [] out
    (fun x u h => by cases h) t ht true
    (by rw [leftAfter_word t (fun x hx => isDigit_isWord x (ht x hx))]; exact hk)
    t.length (by simp)
  rw [List.append_nil] at this
  exact this

/-- C11: a non-empty run of decimal digits, such a run with `.` and another
such run behind it, and `0x` with one or more hexadecimal digits behind it are,
alone, one Number token each. -/
theorem tokenize_number :
    (∀ d : List Char, isDigits d = true → tokenize d = [⟨d, .Number⟩]) ∧
    (∀ d e : List Char, isDigits d = true → isDigits e = true →
      tokenize (d ++ ".".toList ++ e) = [⟨d ++ ".".toList ++ e, .Number⟩]) ∧
    (∀ h : List Char, h ≠ [] → h.all isHexDigit = true →
      tokenize ("0x".toList ++ h) = [⟨"0x".toList ++ h, .Number⟩]) := by
  refine ⟨?_, ?_, ?_⟩
  · intro d hd
    obtain ⟨c, t, rfl, hc, ht⟩ := isDigits_cases d hd
    apply number_token c t (isDigit_isWord c hc)
    rw [number_regex_eq, run_alt_none _ _ _ _ _ (hexNumber_none c t _ (by
      cases t with
      | nil => exact Or.inr (fun t h => by cases h)
      | cons y t =>
        refine Or.inr (fun t' h => ?_)
        cases h
        have := ht 'x' (List.mem_cons_self _ _)
        revert this; decide))]
    have := decimalNumber_run (fun _ x => some x) c t [] hc ht (fun x u h => by cases h)
    rw [List.append_nil] at this
    rw [this, fractionEnd_nil]
  · intro d e hd he
    obtain ⟨c, t, rfl, hc, ht⟩ := isDigits_cases d hd
    obtain ⟨c2, t2, rfl, hc2, ht2⟩ := isDigits_cases e he
    have htext : c :: t ++ ".".toList ++ c2 :: t2 = c :: (t ++ '.' :: c2 :: t2) := by
      simp
    rw [htext]
    apply number_token c _ (isDigit_isWord c hc)
    rw [number_regex_eq, run_alt_none _ _ _ _ _ (hexNumber_none c _ _ (by
      cases t with
      | nil => exact Or.inr (fun t h => by cases h)
      | cons y t =>
        refine Or.inr (fun t' h => ?_)
        cases h
        have := ht 'x' (List.mem_cons_self _ _)
        revert this; decide))]
    rw [decimalNumber_run (fun _ x => some x) c t ('.' :: c2 :: t2) hc ht
      (fun x u h => by cases h; decide)]
    simp only [fractionEnd, Regex.opt, Regex.cat]
    rw [run_seq]
    apply run_alt_some
    rw [run_seq, run_lit_cons, if_pos rfl]
    exact digits_end c2 t2 hc2 ht2 _ _ rfl
  · intro h hne hh
    cases h with
    | nil => exact absurd rfl hne
    | cons c t =>
      simp only [List.all_cons, Bool.and_eq_true, List.all_eq_true] at hh
      show tokenize ('0' :: ('x' :: c :: t)) = [⟨'0' :: ('x' :: c :: t), .Number⟩]
      apply number_token '0' _ (by decide)
      rw [number_regex_eq]
      apply run_alt_some
      simp only [hexNumber, Regex.cat, Regex.plus]
      rw [run_seq, run_wordb, if_pos (by rfl), run_seq, run_lit_cons, if_pos rfl, run_seq,
        run_lit_cons, if_pos rfl, run_seq]
      have h1 := oneChar_hexDigit.2 (isWord 'x') c t
        (fun l' s' => (star hexDigit).run l' s' (fun _ x => some x))
      rw [h1, if_pos hh.1, run_star]
      have := starLoop_run_some hexDigit.run isHexDigit oneChar_hexDigit (fun _ x => some x)
        [] [] (fun x u h => by cases h) t hh.2 (isWord c) rfl t.length (by simp)
      rw [List.append_nil] at this
      exact this

theorem tokenize_number_witness :
    isDigits "42".toList = true ∧ tokenize "42".toList = [⟨"42".toList, .Number⟩] ∧
      isDigits "3".toList = true ∧ isDigits "14".toList = true ∧
      tokenize "3.14".toList = [⟨"3.14".toList, .Number⟩] ∧
      "1A".toList.all isHexDigit = true ∧
      tokenize "0x1A".toList = [⟨"0x1A".toList, .Number⟩] :=
  ⟨by decide, tokenize_number.1 _ (by decide), by decide, by decide,
    tokenize_number.2.1 "3".toList "14".toList (by decide) (by decide), by decide,
    tokenize_number.2.2 "1A".toList (by decide) (by decide)⟩

/-- C19: a run of digits directly followed by a letter other than `x`, or by an
underscore, is not a Number: its first digit is one Unknown token, and the
text after that digit is tokenized as if it were scanned on its own. -/
theorem tokenize_digits_glued (d0 : Char) (ds : List Char) (a : Char) (rest : List Char)
    (hd0 : isDigit d0 = true) (hds : ds.all isDigit = true) (ha : isIdentStart a = true)
    (hx : a ≠ 'x') :
    tokenize (d0 :: ds ++ [a] ++ rest) = ⟨[d0], .Unknown⟩ :: tokenize (ds ++ [a] ++ rest) := by
  have hds' : ∀ x ∈ ds, isDigit x = true := List.all_eq_true.1 hds
  have hw := isDigit_isWord d0 hd0
  have hi := isDigit_not_identStart d0 hd0
  have haw := isIdentStart_isWord a ha
  have htext : d0 :: ds ++ [a] ++ rest = d0 :: (ds ++ a :: rest) := by simp
  have htext' : ds ++ [a] ++ rest = ds ++ a :: rest := by simp
  rw [htext, htext']
  have h1 := comment_none d0 (ds ++ a :: rest) (isWord_ne d0 '/' hw (by decide))
  have h2 := string_literal_none d0 (ds ++ a :: rest) (isWord_ne d0 '\x22' hw (by decide))
  have h3 : anchored number_regex (d0 :: (ds ++ a :: rest)) = none := by
    apply anchored_none_of_run
    rw [number_regex_eq, run_alt_none _ _ _ _ _ (hexNumber_none d0 _ _ (by
      refine Or.inr (fun t h => ?_)
      cases ds with
      | nil => cases h; exact hx rfl
      | cons y ds =>
        cases h
        have := hds' 'x' (List.mem_cons_self _ _)
        revert this; decide))]
    rw [decimalNumber_run _ d0 ds (a :: rest) hd0 hds'
      (fun x u h => by cases h; exact isIdentStart_not_digit _ ha)]
    exact fractionEnd_none_word a rest _ haw
  have h4 := macro_none d0 (ds ++ a :: rest) hi
  have h5 := operator_none_word d0 (ds ++ a :: rest) hw
  have h6 := function_none d0 (ds ++ a :: rest) hi
  have h7 : anchored reserved_word_regex (d0 :: (ds ++ a :: rest)) = none :=
    keyword_none_head reservedWords d0 _
      (fun kw hkw h => by
        have : ∀ kw ∈ reservedWords, ∀ x ∈ kw.toList.head?, isDigit x = false := by decide
        have := this kw hkw d0 (by rw [h]; rfl)
        rw [hd0] at this; cases this) (by decide)
  have h8 := library_none d0 (ds ++ a :: rest) (fun h => by rw [h] at hd0; revert hd0; decide)
  have h9 : anchored type_regex (d0 :: (ds ++ a :: rest)) = none :=
    keyword_none_head typeNames d0 _
      (fun kw hkw h => by
        have : ∀ kw ∈ typeNames, ∀ x ∈ kw.toList.head?, isDigit x = false := by decide
        have := this kw hkw d0 (by rw [h]; rfl)
        rw [hd0] at this; cases this) (by decide)
  have h10 := delimiter_none_word d0 (ds ++ a :: rest) hw
  have h11 := identifier_none d0 (ds ++ a :: rest) hi
  exact tokenize_after_unknown d0 _ (scanStep_unknown _ h1 h2 h3 h4 h5 h6 h7 h8 h9 h10 h11)

theorem tokenize_digits_glued_witness :
    isDigit '1' = true ∧ isIdentStart 'a' = true ∧
      tokenize "1abc".toList = ⟨"1".toList, .Unknown⟩ :: tokenize "abc".toList ∧
      tokenize "42abc".toList = ⟨"4".toList, .Unknown⟩ :: tokenize "2abc".toList ∧
      tokenize "1abc".toList = [⟨"1".toList, .Unknown⟩, ⟨"abc".toList, .Identifier⟩] ∧
      tokenize "42abc".toList =
        [⟨"4".toList, .Unknown⟩, ⟨"2".toList, .Unknown⟩, ⟨"abc".toList, .Identifier⟩] :=
  ⟨by decide, by decide,
    tokenize_digits_glued '1' [] 'a' "bc".toList (by decide) (by decide) (by decide) (by decide),
    tokenize_digits_glued '4' ['2'] 'a' "bc".toList (by decide) (by decide) (by decide)
      (by decide), by decide, by decide⟩

/-! ## C13 and C20: block comments -/

theorem run_starLazy (a : Regex) (l : Bool) (s : List Char) (k : Cont) :
    (starLazy a).run l s k = lazyLoop a.run s.length l s k := rfl

theorem anyChar_run_cons (x : Char) (l : Bool) (t : List Char) (k : Cont) :
    anyChar.run l (x :: t) k = k (isWord x) t := by
  simp only [anyChar, run_cls_cons]
  rw [if_pos (by simp [inClass, ClassAtom.test])]

theorem commentClose_none (l : Bool) (s : List Char) (k : Cont)
    (h : ¬ "*/".toList <+: s) : commentClose.run l s k = none := by
  simp only [commentClose]
  cases s with
  | nil => rfl
  | cons c t =>
    rw [run_seq, run_lit_cons]
    by_cases hc : c = '*'
    · rw [if_pos hc]
      cases t with
      | nil => rfl
      | cons y u =>
        rw [run_lit_cons]
        by_cases hy : y = '/'
        · exact absurd ⟨u, by rw [hc, hy]; rfl⟩ h
        · rw [if_neg hy]
    · rw [if_neg hc]

theorem no_close_cons (c : Char) (b : List Char) (h : ¬ "*/".toList <:+: c :: b) :
    ¬ "*/".toList <:+: b :=
  fun hb => h (List.IsInfix.trans hb (List.suffix_cons c b).isInfix)

/-- The lazy `[\s\S]*?` finds no `*/` in a text that has none. -/
theorem lazyLoop_no_close (k : Cont) :
    ∀ (b : List Char), ¬ "*/".toList <:+: b → ∀ (l : Bool) (n : Nat),
      lazyLoop anyChar.run n l b (fun l' s' => commentClose.run l' s' k) = none := by
  intro b
  induction b with
  | nil =>
    intro _ l n
    cases n with
    | zero => rfl
    | succ n => rfl
  | cons c b ih =>
    intro hb l n
    have hpre : ¬ "*/".toList <+: c :: b := fun h => hb h.isInfix
    cases n with
    | zero => exact commentClose_none l (c :: b) k hpre
    | succ n =>
      simp only [lazyLoop]
      rw [commentClose_none _ _ _ hpre, anyChar_run_cons]
      simp only [List.length_cons, Nat.lt_succ_self, if_true]
      exact ih (no_close_cons c b hb) _ n

/-- The lazy `[\s\S]*?` stops at the first `*/`. -/
theorem lazyLoop_close (k : Cont) (rest out : List Char) (hk : k false rest = some out) :
    ∀ (b : List Char), ¬ "*/".toList <:+: b → ∀ (l : Bool) (n : Nat),
      (b ++ '*' :: '/' :: rest).length ≤ n →
      lazyLoop anyChar.run n l (b ++ '*' :: '/' :: rest)
        (fun l' s' => commentClose.run l' s' k) = some out := by
  have hclose : ∀ l, commentClose.run l ('*' :: '/' :: rest) k = some out := by
    intro l
    simp only [commentClose]
    rw [run_seq, run_lit_cons, if_pos rfl, run_lit_cons, if_pos rfl]
    exact hk
  intro b
  induction b with
  | nil =>
    intro _ l n _
    cases n with
    | zero => exact hclose l
    | succ n => simp only [lazyLoop, List.nil_append, hclose]
  | cons c b ih =>
    intro hb l n hn
    have hpre : ¬ "*/".toList <+: c :: (b ++ '*' :: '/' :: rest) := by
      rintro ⟨u, hu⟩
      have hu' : '*' :: '/' :: u = c :: (b ++ '*' :: '/' :: rest) := hu
      cases b with
      | nil => cases hu'
      | cons y b =>
        cases hu'
        exact hb ⟨[], b, rfl⟩
    cases n with
    | zero => simp at hn
    | succ n =>
      simp only [lazyLoop, List.cons_append]
      rw [commentClose_none _ _ _ hpre, anyChar_run_cons]
      simp only [List.length_cons, Nat.lt_succ_self, if_true]
      exact ih (no_close_cons c b hb) _ n (by simpa using hn)

theorem comment_regex_eq :
    comment_regex = alt (cat [lit '/', lit '/', star dot])
      (seq (lit '/') (seq (lit '*') (seq (starLazy anyChar) commentClose))) := rfl

theorem comment_open_run (u : List Char) (k : Cont) :
    comment_regex.run false ('/' :: '*' :: u) k =
      lazyLoop anyChar.run u.length false u (fun l' s' => commentClose.run l' s' k) := by
  rw [comment_regex_eq, run_alt_none _ _ _ _ _ (by
    simp only [Regex.cat]
    rw [run_seq, run_lit_cons, if_pos rfl, run_seq, run_lit_cons, if_neg (by decide)])]
  rw [run_seq, run_lit_cons, if_pos rfl, run_seq, run_lit_cons, if_pos rfl, run_seq,
    run_starLazy]
  rfl

theorem scanStep_comment (s : List Char) (n : Nat) (h1 : anchored comment_regex s = some n) :
    scanStep s = ([⟨s.take n, .Comment⟩], n) := by
  simp only [scanStep, h1]

/-- C13: `/*`, a body without `*/`, and `*/` are one Comment token, whatever
follows, and the text after the `*/` is tokenized as if it were scanned on its
own. -/
theorem tokenize_block_comment (body rest : List Char) (h : ¬ "*/".toList <:+: body) :
    tokenize ("/*".toList ++ body ++ "*/".toList ++ rest) =
      ⟨"/*".toList ++ body ++ "*/".toList, .Comment⟩ :: tokenize rest := by
  have h1 : anchored comment_regex ("/*".toList ++ body ++ "*/".toList ++ rest) =
      some ("/*".toList ++ body ++ "*/".toList).length := by
    apply anchored_of_run
    have htext : "/*".toList ++ body ++ "*/".toList ++ rest =
        '/' :: '*' :: (body ++ '*' :: '/' :: rest) := by
      simp
    rw [htext, comment_open_run]
    exact lazyLoop_close _ rest rest rfl body h false _ (Nat.le_refl _)
  have hstep := scanStep_comment _ _ h1
  rw [List.take_left] at hstep
  exact tokenize_of_step _ rest _ (by simp) hstep

theorem tokenize_block_comment_witness :
    ¬ "*/".toList <:+: " a // b ".toList ∧
      tokenize "/* a // b */ c".toList =
        ⟨"/* a // b */".toList, .Comment⟩ :: tokenize " c".toList :=
  ⟨by decide, tokenize_block_comment " a // b ".toList " c".toList (by decide)⟩

theorem scanStep_operator (s : List Char) (n : Nat)
    (h1 : anchored comment_regex s = none) (h2 : anchored string_literal_regex s = none)
    (h3 : anchored number_regex s = none) (h4 : anchored macro_regex s = none)
    (h5 : anchored operator_regex s = some n) :
    scanStep s = ([⟨s.take n, .Operator⟩], n) := by
  simp only [scanStep, h1, h2, h3, h4, h5]

/-- C20: `/*` with no `*/` behind it is one Operator token `/*`, and the text
after it is tokenized as if it were scanned on its own. -/
theorem tokenize_unterminated_comment (rest : List Char) (h : ¬ "*/".toList <:+: rest) :
    tokenize ("/*".toList ++ rest) = ⟨"/*".toList, .Operator⟩ :: tokenize rest := by
  have h1 : anchored comment_regex ("/*".toList ++ rest) = none := by
    apply anchored_none_of_run
    show comment_regex.run false ('/' :: '*' :: rest) _ = none
    rw [comment_open_run]
    exact lazyLoop_no_close _ rest h false _
  have h2 : anchored string_literal_regex ("/*".toList ++ rest) = none :=
    string_literal_none '/' _ (by decide)
  have h3 : anchored number_regex ("/*".toList ++ rest) = none := number_none '/' _ (by decide)
  have h4 : anchored macro_regex ("/*".toList ++ rest) = none := macro_none '/' _ (by decide)
  have h5 : anchored operator_regex ("/*".toList ++ rest) = some "/*".toList.length := by
    apply anchored_of_run
    show operator_regex.run false ('/' :: '*' :: rest) _ = some rest
    simp only [operator_regex, Regex.anyOf, Regex.rep12, Regex.opt]
    apply run_alt_some
    rw [run_seq, run_cls_cons, if_pos (by decide)]
    apply run_alt_some
    rw [run_cls_cons, if_pos (by decide)]
  have hstep := scanStep_operator _ _ h1 h2 h3 h4 h5
  rw [List.take_left] at hstep
  exact tokenize_of_step _ rest _ (by decide) hstep

theorem tokenize_unterminated_comment_witness :
    ¬ "*/".toList <:+: " abc".toList ∧
      tokenize "/* abc".toList = ⟨"/*".toList, .Operator⟩ :: tokenize " abc".toList ∧
      tokenize "/* abc".toList =
        [⟨"/*".toList, .Operator⟩, ⟨" ".toList, .Unknown⟩, ⟨"abc".toList, .Identifier⟩] :=
  ⟨by decide, tokenize_unterminated_comment " abc".toList (by decide), by decide⟩

/-! ## C12: string literals -/

theorem string_literal_regex_eq :
    string_literal_regex = seq (lit '\x22') (seq (star stringItem) (lit '\x22')) := rfl

theorem run_dot_cons (x : Char) (l : Bool) (t : List Char) (k : Cont) :
    dot.run l (x :: t) k = if x ≠ '\n' ∧ x ≠ '\r' then k (isWord x) t else none := rfl

/-- The group consumes one item and goes on behind it. -/
theorem stringItem_run (it s : List Char) (hit : isStringItem it = true) (l : Bool) (k : Cont) :
    ∃ l', stringItem.run l (it ++ s) k = k l' s := by
  cases it with
  | nil => cases hit
  | cons c t =>
    cases t with
    | nil =>
      simp only [isStringItem, Bool.and_eq_true, bne_iff_ne, ne_eq] at hit
      refine ⟨isWord c, ?_⟩
      simp only [stringItem, Regex.cat, List.cons_append, List.nil_append]
      cases hk : k (isWord c) s with
      | some out =>
        apply run_alt_some
        rw [run_cls_cons, if_pos (by simp [inClass, ClassAtom.test, hit.1, hit.2]), hk]
      | none =>
        rw [run_alt_none _ _ _ _ _ (by
          rw [run_cls_cons, if_pos (by simp [inClass, ClassAtom.test, hit.1, hit.2]), hk])]
        rw [run_seq, run_lit_cons, if_neg hit.2]
    | cons x u =>
      cases u with
      | nil =>
        simp only [isStringItem, Bool.and_eq_true, beq_iff_eq, bne_iff_ne, ne_eq] at hit
        obtain ⟨⟨hc, hx1⟩, hx2⟩ := hit
        subst hc
        refine ⟨isWord x, ?_⟩
        simp only [stringItem, Regex.cat, List.cons_append, List.nil_append]
        rw [run_alt_none _ _ _ _ _ (by rw [run_cls_cons, if_neg (by decide)])]
        rw [run_seq, run_lit_cons, if_pos rfl, run_dot_cons, if_pos ⟨hx1, hx2⟩]
      | cons y v => cases hit

theorem stringItem_stop (l : Bool) (rest : List Char) (k : Cont) :
    stringItem.run l ('\x22' :: rest) k = none := by
  simp only [stringItem, Regex.cat]
  rw [run_alt_none _ _ _ _ _ (by rw [run_cls_cons, if_neg (by decide)])]
  rw [run_seq, run_lit_cons, if_neg (by decide)]

theorem isStringItem_length (it : List Char) (hit : isStringItem it = true) : 0 < it.length := by
  cases it with
  | nil => cases hit
  | cons c t => simp

/-- The repeated group takes all the items of the body when the rest of the
pattern succeeds at the `"` behind them. -/
theorem stringItems_some (k : Cont) (rest out : List Char)
    (hk : ∀ l, k l ('\x22' :: rest) = some out) :
    ∀ (items : List (List Char)), (∀ it ∈ items, isStringItem it = true) → ∀ (l : Bool) (n : Nat),
      (items.flatten ++ '\x22' :: rest).length ≤ n →
      starLoop stringItem.run n l (items.flatten ++ '\x22' :: rest) k = some out := by
  intro items
  induction items with
  | nil =>
    intro _ l n _
    simp only [List.flatten_nil, List.nil_append]
    rw [starLoop_stop _ _ _ _ (fun k' => stringItem_stop l rest k')]
    exact hk l
  | cons it items ih =>
    intro hitems l n hn
    have hit := hitems it (List.mem_cons_self _ _)
    have hlen := isStringItem_length it hit
    rw [List.flatten_cons, List.append_assoc] at hn ⊢
    cases n with
    | zero => simp only [List.length_append] at hn; omega
    | succ n =>
      simp only [starLoop]
      obtain ⟨l', hl'⟩ := stringItem_run it (items.flatten ++ '\x22' :: rest) hit l
        (fun l' s' => if s'.length < (it ++ (items.flatten ++ '\x22' :: rest)).length then
          starLoop stringItem.run n l' s' k else none)
      rw [hl', if_pos (by simp only [List.length_append]; omega)]
      rw [ih (fun x hx => hitems x (List.mem_cons_of_mem _ hx)) l' n
        (by simp only [List.length_append] at hn ⊢; omega)]

theorem scanStep_string (s : List Char) (n : Nat)
    (h1 : anchored comment_regex s = none) (h2 : anchored string_literal_regex s = some n) :
    scanStep s = ([⟨s.take n, .StringLiteral⟩], n) := by
  simp only [scanStep, h1, h2]

/-- A string literal at the position is one StringLiteral token. -/
theorem string_literal_tokens (items : List (List Char)) (rest : List Char)
    (h : ∀ it ∈ items, isStringItem it = true) :
    tokenize ("\"".toList ++ items.flatten ++ "\"".toList ++ rest) =
      ⟨"\"".toList ++ items.flatten ++ "\"".toList, .StringLiteral⟩ :: tokenize rest := by
  have htext : "\"".toList ++ items.flatten ++ "\"".toList ++ rest =
      '\x22' :: (items.flatten ++ '\x22' :: rest) := by
    simp
  have h1 : anchored comment_regex ("\"".toList ++ items.flatten ++ "\"".toList ++ rest) =
      none := by
    rw [htext]; exact comment_none _ _ (by decide)
  have h2 : anchored string_literal_regex
      ("\"".toList ++ items.flatten ++ "\"".toList ++ rest) =
      some ("\"".toList ++ items.flatten ++ "\"".toList).length := by
    apply anchored_of_run
    rw [htext, string_literal_regex_eq, run_seq, run_lit_cons, if_pos rfl, run_seq, run_star]
    exact stringItems_some _ rest rest
      (fun l => by rw [run_lit_cons, if_pos rfl]) items h _ _ (Nat.le_refl _)
  have hstep := scanStep_string _ _ h1 h2
  rw [List.take_left] at hstep
  exact tokenize_of_step _ rest _ (by simp) hstep

/-- C12: a `"`, a body made of characters other than `"` and the backslash and
of escapes (a backslash and a character other than `\n` and `\r`), and a `"`
are, alone, one StringLiteral token; an escaped `"` does not end the literal. -/
theorem tokenize_string_literal (items : List (List Char))
    (h : ∀ it ∈ items, isStringItem it = true) :
    tokenize ("\"".toList ++ items.flatten ++ "\"".toList) =
      [⟨"\"".toList ++ items.flatten ++ "\"".toList, .StringLiteral⟩] := by
  have := string_literal_tokens items [] h
  simpa only [List.append_nil, tokenize_nil] using this

theorem tokenize_string_literal_witness :
    (∀ it ∈ ["a".toList, "\\\"".toList, "b".toList], isStringItem it = true) ∧
      "\"a\\\"b\"".toList.length = 6 ∧
      tokenize "\"a\\\"b\"".toList = [⟨"\"a\\\"b\"".toList, .StringLiteral⟩] :=
  ⟨by decide, by decide,
    tokenize_string_literal ["a".toList, "\\\"".toList, "b".toList] (by decide)⟩

/-! ## C15: Unknown tokens -/

/-- One pass through the cascade either finds no match of any pattern and
pushes the character at the position as an Unknown token, or takes the branch
of a pattern that matches and pushes no Unknown token. -/
theorem scanStep_cases (rest : List Char) :
    ((∀ r ∈ cascade, anchored r rest = none) ∧
        scanStep rest = ([⟨rest.take 1, .Unknown⟩], 1)) ∨
      ((∃ r ∈ cascade, ∃ n, anchored r rest = some n ∧ (scanStep rest).2 = n) ∧
        ∀ t ∈ (scanStep rest).1, t.type ≠ .Unknown) := by
  unfold scanStep
  repeat' split
  all_goals first
    | (refine Or.inr ⟨⟨_, ?_, _, by assumption, rfl⟩, ?_⟩
       · simp [cascade]
       · intro t ht
         simp only [List.mem_cons, List.mem_singleton, List.not_mem_nil, or_false] at ht
         rcases ht with rfl | rfl <;> simp)
    | (refine Or.inl ⟨?_, rfl⟩
       intro r hr
       simp only [cascade, List.mem_cons, List.mem_singleton, List.not_mem_nil, or_false] at hr
       rcases hr with rfl | rfl | rfl | rfl | rfl | rfl | rfl | rfl | rfl | rfl | rfl <;>
         assumption)

theorem tokenize_reached (code : List Char) :
    ∀ (n : Nat) (rest0 : List Char), rest0.length ≤ n → Reached code rest0 →
      ∀ t ∈ tokenize rest0, ∃ rest, Reached code rest ∧ rest ≠ [] ∧ t ∈ (scanStep rest).1 := by
  intro n
  induction n with
  | zero =>
    intro rest0 hn _ t ht
    have : rest0 = [] := List.eq_nil_of_length_eq_zero (by omega)
    subst this
    simp [tokenize_nil] at ht
  | succ n ih =>
    intro rest0 hn hr t ht
    by_cases hnil : rest0 = []
    · subst hnil; simp [tokenize_nil] at ht
    · rw [tokenize_cons rest0 hnil] at ht
      rcases List.mem_append.1 ht with h | h
      · exact ⟨rest0, hr, hnil, h⟩
      · have hadv := scanStep_advance rest0 hnil
        exact ih _ (by simp only [List.length_drop]; omega) (Reached.next rest0 hr hnil) t h

/-- C15: every token of `tokenize input` was pushed by the pass through the
cascade at a position the loop reached. If it is an Unknown token, none of the
eleven patterns matches at that position and its lexeme is the one character at
the position; if not, one of the eleven patterns matches at that position. -/
theorem unknown_only_without_match (input : List Char) (t : Token)
    (ht : t ∈ tokenize input) :
    ∃ rest, Reached input rest ∧ rest ≠ [] ∧ t ∈ (scanStep rest).1 ∧
      (t.type = .Unknown →
        (∀ r ∈ cascade, anchored r rest = none) ∧ t.value = rest.take 1 ∧
          t.value.length = 1) ∧
      (t.type ≠ .Unknown → ∃ r ∈ cascade, ∃ n, anchored r rest = some n) := by
  obtain ⟨rest, hr, hne, hmem⟩ :=
    tokenize_reached input input.length input (Nat.le_refl _) Reached.start t ht
  refine ⟨rest, hr, hne, hmem, ?_, ?_⟩
  · intro hu
    rcases scanStep_cases rest with ⟨hnone, hstep⟩ | ⟨-, hno⟩
    · rw [hstep] at hmem
      simp only [List.mem_singleton] at hmem
      subst hmem
      refine ⟨hnone, rfl, ?_⟩
      cases rest with
      | nil => exact absurd rfl hne
      | cons c u => rfl
    · exact absurd hu (hno t hmem)
  · intro hu
    rcases scanStep_cases rest with ⟨-, hstep⟩ | ⟨⟨r, hr', n, hn, -⟩, -⟩
    · rw [hstep] at hmem
      simp only [List.mem_singleton] at hmem
      subst hmem
      exact absurd rfl hu
    · exact ⟨r, hr', n, hn⟩

theorem unknown_only_without_match_witness :
    (⟨"@".toList, .Unknown⟩ : Token) ∈ tokenize "a@".toList ∧
      ∃ rest, Reached "a@".toList rest ∧ rest ≠ [] ∧
        (⟨"@".toList, .Unknown⟩ : Token) ∈ (scanStep rest).1 ∧
        (TokenType.Unknown = TokenType.Unknown →
          (∀ r ∈ cascade, anchored r rest = none) ∧ "@".toList = rest.take 1 ∧
            "@".toList.length = 1) ∧
        (TokenType.Unknown ≠ TokenType.Unknown → ∃ r ∈ cascade, ∃ n, anchored r rest = some n) :=
  ⟨by decide, unknown_only_without_match "a@".toList ⟨"@".toList, .Unknown⟩ (by decide)⟩

/-! ## C16 to C18: type names, `..=`, empty lexemes -/

/-- C16 on the code: nine of the ten type names are, alone, one Type token, but
`&str` is an Operator token `&` and an Identifier token `str`: `type_regex`
starts with `\b`, which does not hold in front of `&` at the position, so its
alternative `&str` never matches there, whatever follows. -/
theorem tokenize_type_names :
    typeNames = ["i32", "u32", "i64", "u64", "f32", "f64", "String", "&str", "bool", "char"] ∧
    (∀ name ∈ ["i32", "u32", "i64", "u64", "f32", "f64", "String", "bool", "char"],
      tokenize name.toList = [⟨name.toList, .Type_⟩]) ∧
    tokenize "&str".toList = [⟨"&".toList, .Operator⟩, ⟨"str".toList, .Identifier⟩] ∧
    ∀ rest : List Char, anchored type_regex ('&' :: rest) = none := by
  refine ⟨rfl, by decide, by decide, ?_⟩
  intro rest
  apply anchored_none_of_run
  simp only [type_regex, Regex.cat]
  rw [run_seq, run_wordb, if_neg (by simp [nextIsWord]; decide)]

/-- C17 on the code: `..=` is an Operator token `..` and an Operator token `=`.
The alternatives of `operator_regex` are tried in order and `\.\.` stands
before `\.\.=`, so at `..` the match is always the two characters `..`. -/
theorem tokenize_range_inclusive :
    tokenize "..=".toList = [⟨"..".toList, .Operator⟩, ⟨"=".toList, .Operator⟩] ∧
    ∀ rest : List Char, anchored operator_regex ("..".toList ++ rest) = some 2 := by
  refine ⟨by decide, ?_⟩
  intro rest
  have : anchored operator_regex ("..".toList ++ rest) = some "..".toList.length := by
    apply anchored_of_run
    show operator_regex.run false ('.' :: '.' :: rest) _ = some rest
    simp only [operator_regex, Regex.anyOf, Regex.rep12, Regex.opt]
    rw [run_alt_none _ _ _ _ _ (by rw [run_seq, run_cls_cons, if_neg (by decide)]),
      run_alt_none _ _ _ _ _ (by rw [run_cls_cons, if_neg (by decide)])]
    apply run_alt_some
    rfl
  exact this

/-- Outside the library-import branch every lexeme pushed by one pass is not
empty. -/
theorem scanStep_lexeme_ne_nil (s : List Char) (hs : s ≠ [])
    (hlib : anchored library_regex s = none) : ∀ t ∈ (scanStep s).1, t.value ≠ [] := by
  have htake : ∀ n, 1 ≤ n → s.take n ≠ [] := by
    intro n hn
    cases s with
    | nil => exact absurd rfl hs
    | cons c u =>
      cases n with
      | zero => omega
      | succ n => simp
  have hb : ∀ (r : Regex), 1 ≤ r.minLen → ∀ n, anchored r s = some n → s.take n ≠ [] :=
    fun r hr n h => htake n (anchored_bounds r hr s n h).1
  unfold scanStep
  repeat' split
  all_goals first
    | (rename_i h1; rw [hlib] at h1; cases h1)
    | (intro t ht
       simp only [List.mem_singleton] at ht
       subst ht
       first
         | exact hb comment_regex (by decide) _ (by assumption)
         | exact hb string_literal_regex (by decide) _ (by assumption)
         | exact hb number_regex (by decide) _ (by assumption)
         | exact hb macro_regex (by decide) _ (by assumption)
         | exact hb operator_regex (by decide) _ (by assumption)
         | exact hb reserved_word_regex (by decide) _ (by assumption)
         | exact hb type_regex (by decide) _ (by assumption)
         | exact hb delimiter_regex (by decide) _ (by assumption)
         | exact hb identifier_regex (by decide) _ (by assumption)
         | exact htake 1 (Nat.le_refl 1))
    | (rename_i n hf
       intro t ht
       have hacc := anchored_take function_regex s n hf
       have hmin := accepts_minLen function_regex _ hacc
       obtain ⟨a, ha, hno⟩ := function_accepts _ hacc
       have hfind : find (s.take n) '(' 0 = a.length := by
         rw [ha]
         simp only [find, List.drop_zero]
         rw [findFrom_append _ _ _ hno]; omega
       simp only [List.mem_cons, List.mem_singleton, List.not_mem_nil, or_false] at ht
       rcases ht with rfl | rfl
       · show substr (s.take n) 0 (find (s.take n) '(' 0) ≠ []
         rw [hfind, ha]
         have h2 : function_regex.minLen = 2 := by decide
         rw [ha, h2, List.length_append] at hmin
         cases a with
         | nil => simp at hmin
         | cons x a => simp [substr]
       · decide)

/-- C18 on the code: the library-import branch pushes an Identifier token with
an empty lexeme for `use`, a tab, `std`, a space and `;`. For an input without
the substring `use` every token of `tokenize` has a lexeme that is not empty,
the Function token included. -/
theorem tokenize_empty_lexeme :
    tokenize "use\tstd ;".toList = [⟨"use".toList, .ReservedWord⟩, ⟨[], .Identifier⟩] ∧
    ∀ input : List Char, ¬ "use".toList <:+: input → ∀ t ∈ tokenize input, t.value ≠ [] := by
  refine ⟨by decide, ?_⟩
  intro input h t ht
  obtain ⟨rest, hr, hne, hmem⟩ :=
    tokenize_reached input input.length input (Nat.le_refl _) Reached.start t ht
  have hsuf : rest <:+ input := by
    clear hmem hne ht
    induction hr with
    | start => exact List.suffix_refl _
    | next r _ _ ih => exact List.IsSuffix.trans (List.drop_suffix _ _) ih
  have hlib : anchored library_regex rest = none := by
    cases hl : anchored library_regex rest with
    | none => rfl
    | some m =>
      exact absurd (List.IsInfix.trans (anchored_library_use _ _ hl) hsuf.isInfix) h
  exact scanStep_lexeme_ne_nil rest hne hlib t hmem

end SPLab3
